import Mathlib

/-!
Shallow embedding of the Shisen-sho rule engine (`src/shisen.rs`) of
taotao54321/shisen-web, together with theorems checking the claims of the
natural-language specification against it.

The board is a flat row-major list of cells, exactly as the Rust `Vec<BoardCell>`
indexed by `ncol * r + c`.  Randomness (`thread_rng` shuffles and random move
picks) is modelled by explicit choice data: a shuffle becomes an arbitrary
permutation supplied as a list, and the `shuffle_solvable` loop becomes an
inductively defined step relation quantified over those choices.
-/

namespace Shisen

/-- `TILE_KIND_COUNT` from `shisen.rs`: the number of tile kinds. -/
def TILE_KIND_COUNT : Nat := 34

/-- `usize::MAX` on the 64-bit wasm/host targets the crate builds for. -/
def USIZE_MAX : Nat := 2 ^ 64 - 1

/-- `Square` from `shisen.rs`: a board coordinate (column, row). -/
structure Square where
  c : Nat
  r : Nat
deriving DecidableEq, Repr

/-- `BoardCell` from `shisen.rs`: a cell is empty or holds a tile of some kind. -/
inductive BoardCell where
  | Empty : BoardCell
  | Tile : Nat → BoardCell
deriving DecidableEq, Repr

namespace BoardCell

/-- `BoardCell::is_empty`. -/
def is_empty : BoardCell → Bool
  | Empty => true
  | Tile _ => false

/-- `BoardCell::is_tile`. -/
def is_tile : BoardCell → Bool
  | Empty => false
  | Tile _ => true

/-- `BoardCell::is_same_tile`: both are tiles of equal kind. -/
def is_same_tile : BoardCell → BoardCell → Bool
  | Tile k1, Tile k2 => k1 == k2
  | _, _ => false

end BoardCell

/-- `Board` from `shisen.rs`: dimensions and the flat row-major cell vector.
`ncol`/`nrow` are the *total* dimensions (interior plus the one-cell border). -/
structure Board where
  ncol : Nat
  nrow : Nat
  cells : List BoardCell
deriving DecidableEq, Repr

/-- `Move` from `shisen.rs`: the path of a legal move. -/
structure Move where
  path : List Square
deriving DecidableEq, Repr

namespace Move

/-- Default square used only to totalize `src`/`dst` (the Rust code panics on an
empty path; every constructed path is nonempty). -/
def dummySquare : Square := ⟨0, 0⟩

/-- `Move::src`: the first point of the path. -/
def src (mv : Move) : Square := mv.path.headD dummySquare

/-- `Move::dst`: the last point of the path. -/
def dst (mv : Move) : Square := mv.path.getLastD dummySquare

/-- `a.abs_diff b` on `usize`. -/
def absDiff (a b : Nat) : Nat := if a ≤ b then b - a else a - b

/-- `Move::path_distance`: sum over consecutive path points of the Chebyshev
distance (max of column and row absolute differences). -/
def path_distance (mv : Move) : Nat :=
  ((mv.path.zip mv.path.tail).map
    (fun p => max (absDiff p.1.c p.2.c) (absDiff p.1.r p.2.r))).sum

/-- `Move::new_vhv`: vertical-horizontal-vertical path through row `r`,
collapsing degenerate segments. -/
def new_vhv (src dst : Square) (r : Nat) : Move :=
  ⟨[src] ++ (if src.r ≠ r then [⟨src.c, r⟩] else [])
        ++ (if dst.r ≠ r then [⟨dst.c, r⟩] else []) ++ [dst]⟩

/-- `Move::new_hvh`: horizontal-vertical-horizontal path through column `c`,
collapsing degenerate segments. -/
def new_hvh (src dst : Square) (c : Nat) : Move :=
  ⟨[src] ++ (if src.c ≠ c then [⟨c, src.r⟩] else [])
        ++ (if dst.c ≠ c then [⟨c, dst.r⟩] else []) ++ [dst]⟩

end Move

namespace Board

/-- `Board::cr2idx`: flat row-major index. -/
def cr2idx (b : Board) (c r : Nat) : Nat := b.ncol * r + c

/-- `Board::sq2idx`. -/
def sq2idx (b : Board) (sq : Square) : Nat := b.cr2idx sq.c sq.r

/-- Reading a cell (`Index<Square> for Board`).  Out-of-range reads default to
`Empty`; the Rust code panics there and no claim exercises that case. -/
def get (b : Board) (sq : Square) : BoardCell := b.cells.getD (b.sq2idx sq) .Empty

/-- Writing a cell (`IndexMut<Square> for Board`). -/
def set (b : Board) (sq : Square) (x : BoardCell) : Board :=
  ⟨b.ncol, b.nrow, b.cells.set (b.sq2idx sq) x⟩

/-- `Board::squares`: all squares, row-major (`iproduct!(0..nrow, 0..ncol)`). -/
def squares (b : Board) : List Square :=
  (List.range b.nrow).flatMap (fun r => (List.range b.ncol).map (fun c => ⟨c, r⟩))

/-- `Board::squares_inner`: the squares strictly inside the border ring. -/
def squares_inner (b : Board) : List Square :=
  b.squares.filter (fun sq =>
    decide (1 ≤ sq.c ∧ sq.c < b.ncol - 1 ∧ 1 ≤ sq.r ∧ sq.r < b.nrow - 1))

/-- The occupied interior squares, in enumeration order. -/
def occupied (b : Board) : List Square :=
  b.squares_inner.filter (fun sq => (b.get sq).is_tile)

/-- `Board::enumerate_tiles`: interior squares holding a tile, with their cell. -/
def enumerate_tiles (b : Board) : List (Square × BoardCell) :=
  b.occupied.map (fun sq => (sq, b.get sq))

/-- `Board::iter_tiles`: the tiles on the board, in interior enumeration order. -/
def iter_tiles (b : Board) : List BoardCell := (b.enumerate_tiles).map (fun e => e.2)

/-- `Board::is_empty`: every interior cell is empty. -/
def is_empty (b : Board) : Bool := b.squares_inner.all (fun sq => (b.get sq).is_empty)

/-- `Board::do_move`: blank the move's endpoints.  The move is assumed legal. -/
def do_move (b : Board) (mv : Move) : Board := (b.set mv.src .Empty).set mv.dst .Empty

/-- The `f_min` closure of `Board::moves_between_vhv`: lowest row reachable
upward from `sq` along its column without crossing a tile. -/
def f_min_v (b : Board) (sq : Square) : Nat :=
  match (List.range sq.r).reverse.find? (fun r => (b.get ⟨sq.c, r⟩).is_tile) with
  | some r => r + 1
  | none => 0

/-- The `f_max` closure of `Board::moves_between_vhv`: highest row reachable
downward from `sq` along its column without crossing a tile. -/
def f_max_v (b : Board) (sq : Square) : Nat :=
  match (List.range' (sq.r + 1) (b.nrow - (sq.r + 1))).find?
      (fun r => (b.get ⟨sq.c, r⟩).is_tile) with
  | some r => r - 1
  | none => b.nrow - 1

/-- The `f_min` closure of `Board::moves_between_hvh`. -/
def f_min_h (b : Board) (sq : Square) : Nat :=
  match (List.range sq.c).reverse.find? (fun c => (b.get ⟨c, sq.r⟩).is_tile) with
  | some c => c + 1
  | none => 0

/-- The `f_max` closure of `Board::moves_between_hvh`. -/
def f_max_h (b : Board) (sq : Square) : Nat :=
  match (List.range' (sq.c + 1) (b.ncol - (sq.c + 1))).find?
      (fun c => (b.get ⟨c, sq.r⟩).is_tile) with
  | some c => c - 1
  | none => b.ncol - 1

/-- `Board::moves_between_vhv`: all vertical-horizontal-vertical moves.
`r_range` is the intersection of the two reachable row ranges
(`util::range_intersection`), `c_range` the columns strictly between the two. -/
def moves_between_vhv (b : Board) (src dst : Square) : List Move :=
  if src.c = dst.c then []
  else
    let lo := max (f_min_v b src) (f_min_v b dst)
    let hi := min (f_max_v b src) (f_max_v b dst)
    let cLo := min src.c dst.c + 1
    let cHi := max src.c dst.c - 1
    ((List.range' lo (hi + 1 - lo)).filter (fun r =>
        (List.range' cLo (cHi + 1 - cLo)).all (fun c => (b.get ⟨c, r⟩).is_empty))).map
      (fun r => Move.new_vhv src dst r)

/-- `Board::moves_between_hvh`: all horizontal-vertical-horizontal moves. -/
def moves_between_hvh (b : Board) (src dst : Square) : List Move :=
  if src.r = dst.r then []
  else
    let lo := max (f_min_h b src) (f_min_h b dst)
    let hi := min (f_max_h b src) (f_max_h b dst)
    let rLo := min src.r dst.r + 1
    let rHi := max src.r dst.r - 1
    ((List.range' lo (hi + 1 - lo)).filter (fun c =>
        (List.range' rLo (rHi + 1 - rLo)).all (fun r => (b.get ⟨c, r⟩).is_empty))).map
      (fun c => Move.new_hvh src dst c)

/-- `Board::moves_between`: reject a degenerate or mismatched pair, otherwise
chain the VHV moves before the HVH moves. -/
def moves_between (b : Board) (src dst : Square) : List Move :=
  if src = dst ∨ (b.get src).is_same_tile (b.get dst) = false then []
  else b.moves_between_vhv src dst ++ b.moves_between_hvh src dst

/-- `Board::find_move_between`: the first move between the two squares. -/
def find_move_between (b : Board) (src dst : Square) : Option Move :=
  (b.moves_between src dst).head?

/-- One folding step of `Iterator::min_by_key`: keep the new element when its
key is less than or equal (Rust returns the last of several equal minima). -/
def minByKeyStep (f : Move → Nat) (acc : Option Move) (x : Move) : Option Move :=
  match acc with
  | none => some x
  | some y => if f x ≤ f y then some x else some y

/-- `Iterator::min_by_key` over a list: the last element attaining the minimal
key. -/
def minByKeyLast (f : Move → Nat) (l : List Move) : Option Move :=
  l.foldl (minByKeyStep f) none

/-- `Board::shortest_move_between`: a move of minimal `path_distance`. -/
def shortest_move_between (b : Board) (src dst : Square) : Option Move :=
  minByKeyLast Move.path_distance (b.moves_between src dst)

/-- `itertools` `combinations(2)`: all ordered pairs `(earlier, later)` drawn
from the list, grouped by the first component. -/
def pairs2 : List Square → List (Square × Square)
  | [] => []
  | x :: xs => (xs.map (fun y => (x, y))) ++ pairs2 xs

/-- `Board::find_move`: the first legal move over all interior square pairs. -/
def find_move (b : Board) : Option Move :=
  (pairs2 b.squares_inner).findSome? (fun p => b.find_move_between p.1 p.2)

/-- `Board::random_move` with the shuffled pair order made explicit: the real
code shuffles `combinations(2)` and takes the first pair admitting a move. -/
def randomMoveWith (b : Board) (prs : List (Square × Square)) : Option Move :=
  prs.findSome? (fun p => b.find_move_between p.1 p.2)

/-- `Board::is_stuck`: non-empty and no legal move. -/
def is_stuck (b : Board) : Bool := !b.is_empty && (b.find_move).isNone

/-- `Board::empty` with panics modelled as `none`: `none` when a `NonZeroUsize`
argument would be zero, when the evenness assertion fails, or when the size
arithmetic overflows `usize`; otherwise the all-empty bordered board. -/
def empty? (ncol_inner nrow_inner : Nat) : Option Board :=
  if ncol_inner = 0 ∨ nrow_inner = 0 then none
  else if ¬(ncol_inner % 2 = 0 ∨ nrow_inner % 2 = 0) then none
  else if ncol_inner + 2 > USIZE_MAX ∨ nrow_inner + 2 > USIZE_MAX then none
  else if (ncol_inner + 2) * (nrow_inner + 2) > USIZE_MAX then none
  else some ⟨ncol_inner + 2, nrow_inner + 2,
    List.replicate ((ncol_inner + 2) * (nrow_inner + 2)) .Empty⟩

/-- Write a list of square/value pairs onto a board, in order. -/
def setMany (b : Board) (l : List (Square × BoardCell)) : Board :=
  l.foldl (fun s p => s.set p.1 p.2) b

/-- `Board::shuffle` with the shuffled tile order made explicit: write the
cells of `ts` onto the occupied interior squares, in enumeration order.  The
real code pops the shuffled vector; as the order is an arbitrary permutation,
`ts` directly lists the cell each occupied square receives. -/
def assignTiles (b : Board) (ts : List BoardCell) : Board :=
  b.setMany (List.zip b.occupied ts)

/-- The write-back step of `Board::shuffle_solvable`: copy every tile of `work`
onto `self` at its square. -/
def writeback (self work : Board) : Board :=
  self.setMany work.enumerate_tiles

/-- The bordered all-empty board `Board::empty` returns on success and
`Board::random` fills. -/
def base (ncol_inner nrow_inner : Nat) : Board :=
  ⟨ncol_inner + 2, nrow_inner + 2,
    List.replicate ((ncol_inner + 2) * (nrow_inner + 2)) .Empty⟩

/-- The tile-kind list built by `Board::random` before placement: `2q` full
runs of all kinds followed by the first `r / 2` kinds of the shuffled kind
order `σ`, twice. -/
def randomTiles (n_inner : Nat) (σ : List Nat) : List Nat :=
  (List.replicate (2 * (n_inner / (2 * TILE_KIND_COUNT)))
      (List.range TILE_KIND_COUNT)).flatten
    ++ σ.take ((n_inner % (2 * TILE_KIND_COUNT)) / 2)
    ++ σ.take ((n_inner % (2 * TILE_KIND_COUNT)) / 2)

/-- The board `Board::random` builds before calling `shuffle_solvable`: the
kinds of `randomTiles` written over the interior squares in enumeration order
(`itertools::zip_eq`). -/
def initialRandom (ncol_inner nrow_inner : Nat) (σ : List Nat) : Board :=
  let b : Board := ⟨ncol_inner + 2, nrow_inner + 2,
    List.replicate ((ncol_inner + 2) * (nrow_inner + 2)) .Empty⟩
  b.setMany
    (List.zip b.squares_inner ((randomTiles (ncol_inner * nrow_inner) σ).map .Tile))

/-- Repeated `find_move` + `do_move`, with fuel; stops when no move remains. -/
def greedyRun : Nat → Board → Board
  | 0, b => b
  | n + 1, b =>
    match b.find_move with
    | none => b
    | some mv => greedyRun n (b.do_move mv)

/-- All border-ring squares are empty. -/
def border_empty (b : Board) : Bool :=
  b.squares.all (fun sq =>
    if sq.c = 0 ∨ sq.r = 0 ∨ sq.c = b.ncol - 1 ∨ sq.r = b.nrow - 1
    then (b.get sq).is_empty else true)

/-- The interior cells in enumeration order. -/
def innerCells (b : Board) : List BoardCell := b.squares_inner.map b.get

/-- Number of interior cells holding a tile. -/
def tileCount (b : Board) : Nat := (b.innerCells.filter (fun x => x.is_tile)).length

/-- Number of interior cells holding a tile of kind `k`. -/
def kindCount (b : Board) (k : Nat) : Nat := b.innerCells.count (.Tile k)

end Board

open Board

/-- One working-board reduction phase of `Board::shuffle_solvable`: apply
`random_move` results until none remains.  A step picks any pair of the
(shuffled) `combinations(2)` list that admits a move — exactly the pairs a
`thread_rng` shuffle can bring to the front — and plays the move
`find_move_between` yields for it. -/
inductive RandomPlay : Board → Board → Prop
  | refl (b : Board) : RandomPlay b b
  | step {b c : Board} (s d : Square) (mv : Move) :
      (s, d) ∈ pairs2 b.squares_inner →
      b.find_move_between s d = some mv →
      RandomPlay (b.do_move mv) c →
      RandomPlay b c

/-- The outer loop of `Board::shuffle_solvable`, relating the result board and
the working copy to the final result.  `ts` is the arbitrary permutation a
`thread_rng` shuffle can produce; a reduction phase ends when `random_move`
(equivalently `find_move`) finds nothing. -/
inductive Gen : Board → Board → Board → Prop
  | done (self work : Board) : work.is_empty = true → Gen self work self
  | step {self work final : Board} (ts : List BoardCell) (work3 : Board) :
      work.is_empty = false →
      ts.Perm work.iter_tiles →
      RandomPlay (work.assignTiles ts) work3 →
      work3.find_move = none →
      Gen (self.writeback (work.assignTiles ts)) work3 final →
      Gen self work final

/-- `b` is a possible output of `Board::random ncol_inner nrow_inner`: for some
shuffled kind order `σ` and some realization of the random choices of
`shuffle_solvable`, the call returns `b` (arguments are `NonZeroUsize`, the
evenness assertion holds, and the size arithmetic does not overflow). -/
def Produced (ncol_inner nrow_inner : Nat) (b : Board) : Prop :=
  0 < ncol_inner ∧ 0 < nrow_inner ∧ (ncol_inner % 2 = 0 ∨ nrow_inner % 2 = 0) ∧
  ncol_inner + 2 ≤ USIZE_MAX ∧ nrow_inner + 2 ≤ USIZE_MAX ∧
  (ncol_inner + 2) * (nrow_inner + 2) ≤ USIZE_MAX ∧
  ∃ σ : List Nat, σ.Perm (List.range TILE_KIND_COUNT) ∧
    Gen (initialRandom ncol_inner nrow_inner σ) (initialRandom ncol_inner nrow_inner σ) b

/-- Executable checker for a reduction phase: play the given pairs in order,
requiring each to admit a move. -/
def playSeq : Board → List (Square × Square) → Option Board
  | b, [] => some b
  | b, p :: ps =>
    if p ∈ pairs2 b.squares_inner then
      match b.find_move_between p.1 p.2 with
      | some mv => playSeq (b.do_move mv) ps
      | none => none
    else none

/-- Well-formed board: the cell vector has exactly `ncol * nrow` entries. -/
def Board.Wf (b : Board) : Prop := b.cells.length = b.ncol * b.nrow

/-- `sq` lies on the allocated grid. -/
def Board.SqIn (b : Board) (sq : Square) : Prop := sq.c < b.ncol ∧ sq.r < b.nrow

/-- Segment axes of a path, `true` for a vertical segment. -/
def segAxes (path : List Square) : List Bool :=
  (path.zip path.tail).map (fun p => p.1.c == p.2.c)

/-- Number of bends of a path: adjacent segments whose axes differ. -/
def bends (path : List Square) : Nat :=
  ((segAxes path).zip (segAxes path).tail).countP (fun p => p.1 != p.2)

/-- The path shape the specification requires of a returned move, relative to
the board it was computed on and the queried squares `s`, `d`: 2 to 4 points,
endpoints `s` and `d`, consecutive points differing in exactly one axis, at
most two bends, and all intermediate path points empty. -/
def PathSpec (b : Board) (s d : Square) (mv : Move) : Prop :=
  2 ≤ mv.path.length ∧ mv.path.length ≤ 4 ∧
  mv.path.head? = some s ∧ mv.path.getLast? = some d ∧
  mv.path.Chain' (fun p q => (p.c = q.c ∧ p.r ≠ q.r) ∨ (p.c ≠ q.c ∧ p.r = q.r)) ∧
  bends mv.path ≤ 2 ∧
  ∀ p ∈ (mv.path.drop 1).dropLast, (b.get p).is_empty = true

/-- A board from which some sequence of legal moves reaches the empty board. -/
def Clearable (b : Board) : Prop := ∃ b', RandomPlay b b' ∧ b'.is_empty = true

/-- A border row of the 12-column test board. -/
def borderRow : List BoardCell := List.replicate 12 .Empty

/-- An interior row of the 12-column test board: a border cell, ten tiles
given by their kinds, a border cell. -/
def innerRow (ks : List Nat) : List BoardCell := [.Empty] ++ ks.map .Tile ++ [.Empty]

/-- A 10×7-interior board on which the greedy `find_move`/`do_move` loop gets
stuck: the only initial moves pair the three kind-0 tiles of row 1, the first
one found removes `(4,1)`/`(5,1)`, and afterwards no move remains, yet an
alternative line (`trapSolution`) clears the whole board. -/
def trapBoard : Board := ⟨12, 9,
  borderRow
  ++ innerRow [27, 20, 13, 0, 0, 10, 0, 14, 21, 28]
  ++ innerRow [28, 21, 14, 1, 6, 7, 1, 13, 20, 27]
  ++ innerRow [29, 22, 15, 2, 8, 10, 2, 15, 22, 29]
  ++ innerRow [30, 23, 16, 3, 9, 11, 3, 16, 23, 30]
  ++ innerRow [31, 24, 17, 4, 8, 12, 4, 17, 24, 31]
  ++ innerRow [33, 26, 19, 5, 9, 11, 5, 18, 25, 32]
  ++ innerRow [32, 25, 18, 6, 0, 12, 7, 19, 26, 33]
  ++ borderRow⟩

/-- A pair sequence fully clearing `trapBoard`. -/
def trapSolution : List (Square × Square) :=
  [(⟨4,1⟩,⟨7,1⟩), (⟨4,2⟩,⟨7,2⟩), (⟨4,3⟩,⟨7,3⟩), (⟨4,4⟩,⟨7,4⟩), (⟨4,5⟩,⟨7,5⟩), (⟨4,6⟩,⟨7,6⟩),
   (⟨5,2⟩,⟨4,7⟩), (⟨5,1⟩,⟨5,7⟩), (⟨6,2⟩,⟨7,7⟩),
   (⟨5,3⟩,⟨5,5⟩), (⟨5,4⟩,⟨5,6⟩), (⟨6,1⟩,⟨6,3⟩), (⟨6,4⟩,⟨6,6⟩), (⟨6,5⟩,⟨6,7⟩),
   (⟨3,1⟩,⟨8,2⟩), (⟨8,1⟩,⟨3,2⟩), (⟨3,3⟩,⟨8,3⟩), (⟨3,4⟩,⟨8,4⟩), (⟨3,5⟩,⟨8,5⟩),
   (⟨8,6⟩,⟨3,7⟩), (⟨3,6⟩,⟨8,7⟩),
   (⟨2,1⟩,⟨9,2⟩), (⟨9,1⟩,⟨2,2⟩), (⟨2,3⟩,⟨9,3⟩), (⟨2,4⟩,⟨9,4⟩), (⟨2,5⟩,⟨9,5⟩),
   (⟨9,6⟩,⟨2,7⟩), (⟨2,6⟩,⟨9,7⟩),
   (⟨1,1⟩,⟨10,2⟩), (⟨10,1⟩,⟨1,2⟩), (⟨1,3⟩,⟨10,3⟩), (⟨1,4⟩,⟨10,4⟩), (⟨1,5⟩,⟨10,5⟩),
   (⟨10,6⟩,⟨1,7⟩), (⟨1,6⟩,⟨10,7⟩)]

/-- The all-empty 12×9 board. -/
def emptyFinal : Board := ⟨12, 9, List.replicate 108 .Empty⟩

/-- The board `Board::random 10 7` builds before `shuffle_solvable` when the
kind shuffle leaves the kinds in their original order. -/
def trapInitial : Board := Board.initialRandom 10 7 (List.range 34)

/-- The interior cells of `trapBoard`, the shuffle permutation of the single
`shuffle_solvable` round that commits `trapBoard`. -/
def trapTiles : List BoardCell := trapBoard.innerCells

/-! ### Basic lemmas about cells, indexing and square enumeration -/

theorem BoardCell.is_empty_eq_not_is_tile (x : BoardCell) : x.is_empty = !x.is_tile := by
  cases x <;> rfl

theorem BoardCell.is_same_tile_comm (x y : BoardCell) :
    x.is_same_tile y = y.is_same_tile x := by
  cases x <;> cases y <;> simp [BoardCell.is_same_tile]
  exact eq_comm

theorem BoardCell.is_same_tile_iff {x y : BoardCell} :
    x.is_same_tile y = true ↔ ∃ k, x = .Tile k ∧ y = .Tile k := by
  cases x <;> cases y <;> simp [BoardCell.is_same_tile]
  exact eq_comm

theorem BoardCell.is_tile_of_same_left {x y : BoardCell} (h : x.is_same_tile y = true) :
    x.is_tile = true := by
  rcases BoardCell.is_same_tile_iff.mp h with ⟨k, rfl, rfl⟩; rfl

theorem BoardCell.is_tile_of_same_right {x y : BoardCell} (h : x.is_same_tile y = true) :
    y.is_tile = true := by
  rcases BoardCell.is_same_tile_iff.mp h with ⟨k, rfl, rfl⟩; rfl

theorem Board.ncol_set (b : Board) (sq : Square) (x : BoardCell) :
    (b.set sq x).ncol = b.ncol := rfl

theorem Board.nrow_set (b : Board) (sq : Square) (x : BoardCell) :
    (b.set sq x).nrow = b.nrow := rfl

theorem Board.length_cells_set (b : Board) (sq : Square) (x : BoardCell) :
    (b.set sq x).cells.length = b.cells.length := by
  simp [Board.set]

theorem Board.sq2idx_set (b : Board) (sq sq' : Square) (x : BoardCell) :
    (b.set sq x).sq2idx sq' = b.sq2idx sq' := rfl

theorem Board.wf_set (b : Board) (sq : Square) (x : BoardCell) (h : b.Wf) :
    (b.set sq x).Wf := by
  simpa [Board.Wf, Board.set] using h

theorem Board.get_set_self (b : Board) (sq : Square) (x : BoardCell)
    (h : b.sq2idx sq < b.cells.length) : (b.set sq x).get sq = x := by
  have h' : b.ncol * sq.r + sq.c < b.cells.length := h
  simp [Board.get, Board.set, Board.sq2idx, Board.cr2idx,
    List.getD_eq_getElem?_getD, List.getElem?_set_self, h']

theorem Board.get_set_ne (b : Board) (sq sq' : Square) (x : BoardCell)
    (h : b.sq2idx sq ≠ b.sq2idx sq') : (b.set sq x).get sq' = b.get sq' := by
  have h' : b.ncol * sq.r + sq.c ≠ b.ncol * sq'.r + sq'.c := h
  simp [Board.get, Board.set, Board.sq2idx, Board.cr2idx]
  rw [List.getElem?_set_ne h']

theorem Board.mem_squares (b : Board) (sq : Square) :
    sq ∈ b.squares ↔ sq.c < b.ncol ∧ sq.r < b.nrow := by
  unfold Board.squares
  simp only [List.mem_flatMap, List.mem_map, List.mem_range]
  constructor
  · rintro ⟨r, hr, c, hc, rfl⟩; exact ⟨hc, hr⟩
  · rintro ⟨hc, hr⟩; exact ⟨sq.r, hr, sq.c, hc, rfl⟩

theorem Board.mem_squares_inner (b : Board) (sq : Square) :
    sq ∈ b.squares_inner ↔
      1 ≤ sq.c ∧ sq.c < b.ncol - 1 ∧ 1 ≤ sq.r ∧ sq.r < b.nrow - 1 := by
  unfold Board.squares_inner
  simp only [List.mem_filter, Board.mem_squares, decide_eq_true_eq]
  constructor
  · rintro ⟨_, h⟩; exact h
  · rintro ⟨h1, h2, h3, h4⟩; exact ⟨⟨by omega, by omega⟩, h1, h2, h3, h4⟩

theorem Board.sqIn_of_mem_inner {b : Board} {sq : Square} (h : sq ∈ b.squares_inner) :
    b.SqIn sq := by
  rw [Board.mem_squares_inner] at h
  exact ⟨by omega, by omega⟩

theorem Board.sq2idx_lt (b : Board) (sq : Square) (h : b.SqIn sq) (hw : b.Wf) :
    b.sq2idx sq < b.cells.length := by
  rcases h with ⟨hc, hr⟩
  rw [hw]
  unfold Board.sq2idx Board.cr2idx
  calc b.ncol * sq.r + sq.c < b.ncol * sq.r + b.ncol := by omega
    _ = b.ncol * (sq.r + 1) := by ring
    _ ≤ b.ncol * b.nrow := Nat.mul_le_mul_left _ (by omega)

theorem Board.sq2idx_inj (b : Board) {sq sq' : Square} (h : sq.c < b.ncol)
    (h' : sq'.c < b.ncol) (he : b.sq2idx sq = b.sq2idx sq') : sq = sq' := by
  unfold Board.sq2idx Board.cr2idx at he
  have hc : sq.c = sq'.c := by
    have h1 := congrArg (fun t => t % b.ncol) he
    simpa [Nat.mul_add_mod, Nat.mod_eq_of_lt h, Nat.mod_eq_of_lt h'] using h1
  have hr : sq.r = sq'.r := by
    have : b.ncol * sq.r = b.ncol * sq'.r := by omega
    exact Nat.eq_of_mul_eq_mul_left (by omega) this
  cases sq; cases sq'; simp_all

/-! ### Characterizations of the directional tile scans -/

theorem findRev_none {n : Nat} {p : Nat → Bool}
    (h : (List.range n).reverse.find? p = none) : ∀ k, k < n → p k = false := by
  intro k hk
  have := List.find?_eq_none.mp h k (by simp [List.mem_reverse, List.mem_range, hk])
  simpa using this

theorem findRev_some {n : Nat} {p : Nat → Bool} {r : Nat}
    (h : (List.range n).reverse.find? p = some r) :
    p r = true ∧ r < n ∧ ∀ k, r < k → k < n → p k = false := by
  induction n with
  | zero => simp at h
  | succ n ih =>
    rw [List.range_succ, List.reverse_append, List.reverse_singleton] at h
    simp only [List.singleton_append, List.find?_cons] at h
    cases hp : p n with
    | true =>
      rw [hp] at h
      injection h with h
      subst h
      exact ⟨hp, by omega, fun k h1 h2 => by omega⟩
    | false =>
      rw [hp] at h
      obtain ⟨h1, h2, h3⟩ := ih h
      refine ⟨h1, by omega, fun k hk1 hk2 => ?_⟩
      rcases Nat.lt_or_ge k n with hk | hk
      · exact h3 k hk1 hk
      · have : k = n := by omega
        subst this; exact hp

theorem findFwd_none {a n : Nat} {p : Nat → Bool}
    (h : (List.range' a n).find? p = none) :
    ∀ k, a ≤ k → k < a + n → p k = false := by
  intro k h1 h2
  have := List.find?_eq_none.mp h k (List.mem_range'_1.mpr ⟨h1, h2⟩)
  simpa using this

theorem findFwd_some {n a r : Nat} {p : Nat → Bool}
    (h : (List.range' a n).find? p = some r) :
    p r = true ∧ a ≤ r ∧ r < a + n ∧ ∀ k, a ≤ k → k < r → p k = false := by
  induction n generalizing a with
  | zero => simp at h
  | succ n ih =>
    have hcons : List.range' a (n + 1) = a :: List.range' (a + 1) n := rfl
    rw [hcons] at h
    simp only [List.find?_cons] at h
    cases hp : p a with
    | true =>
      rw [hp] at h
      injection h with h
      subst h
      exact ⟨hp, Nat.le_refl _, by omega, fun k h1 h2 => by omega⟩
    | false =>
      rw [hp] at h
      obtain ⟨h1, h2, h3, h4⟩ := ih h
      refine ⟨h1, by omega, by omega, fun k hk1 hk2 => ?_⟩
      rcases Nat.lt_or_ge k (a + 1) with hk | hk
      · have : k = a := by omega
        subst this; exact hp
      · exact h4 k hk hk2

theorem Board.f_min_v_spec (b : Board) (sq : Square) :
    b.f_min_v sq ≤ sq.r ∧
    ∀ rr, b.f_min_v sq ≤ rr → rr < sq.r → (b.get ⟨sq.c, rr⟩).is_tile = false := by
  cases hfind : (List.range sq.r).reverse.find? (fun r => (b.get ⟨sq.c, r⟩).is_tile) with
  | none =>
    have hval : b.f_min_v sq = 0 := by unfold Board.f_min_v; rw [hfind]
    rw [hval]
    exact ⟨Nat.zero_le _, fun rr h1 h2 => findRev_none hfind rr h2⟩
  | some r0 =>
    have hval : b.f_min_v sq = r0 + 1 := by unfold Board.f_min_v; rw [hfind]
    obtain ⟨hp, hlt, hclear⟩ := findRev_some hfind
    rw [hval]
    exact ⟨by omega, fun rr h1 h2 => hclear rr (by omega) h2⟩

theorem Board.f_max_v_spec (b : Board) (sq : Square) :
    ∀ rr, sq.r < rr → rr ≤ b.f_max_v sq → (b.get ⟨sq.c, rr⟩).is_tile = false := by
  cases hfind : (List.range' (sq.r + 1) (b.nrow - (sq.r + 1))).find?
      (fun r => (b.get ⟨sq.c, r⟩).is_tile) with
  | none =>
    have hval : b.f_max_v sq = b.nrow - 1 := by unfold Board.f_max_v; rw [hfind]
    rw [hval]
    intro rr h1 h2
    exact findFwd_none hfind rr (by omega) (by omega)
  | some r0 =>
    have hval : b.f_max_v sq = r0 - 1 := by unfold Board.f_max_v; rw [hfind]
    obtain ⟨hp, h2, h3, hclear⟩ := findFwd_some hfind
    rw [hval]
    intro rr hr1 hr2
    exact hclear rr (by omega) (by omega)

theorem Board.f_min_h_spec (b : Board) (sq : Square) :
    b.f_min_h sq ≤ sq.c ∧
    ∀ cc, b.f_min_h sq ≤ cc → cc < sq.c → (b.get ⟨cc, sq.r⟩).is_tile = false := by
  cases hfind : (List.range sq.c).reverse.find? (fun c => (b.get ⟨c, sq.r⟩).is_tile) with
  | none =>
    have hval : b.f_min_h sq = 0 := by unfold Board.f_min_h; rw [hfind]
    rw [hval]
    exact ⟨Nat.zero_le _, fun cc h1 h2 => findRev_none hfind cc h2⟩
  | some c0 =>
    have hval : b.f_min_h sq = c0 + 1 := by unfold Board.f_min_h; rw [hfind]
    obtain ⟨hp, hlt, hclear⟩ := findRev_some hfind
    rw [hval]
    exact ⟨by omega, fun cc h1 h2 => hclear cc (by omega) h2⟩

theorem Board.f_max_h_spec (b : Board) (sq : Square) :
    ∀ cc, sq.c < cc → cc ≤ b.f_max_h sq → (b.get ⟨cc, sq.r⟩).is_tile = false := by
  cases hfind : (List.range' (sq.c + 1) (b.ncol - (sq.c + 1))).find?
      (fun c => (b.get ⟨c, sq.r⟩).is_tile) with
  | none =>
    have hval : b.f_max_h sq = b.ncol - 1 := by unfold Board.f_max_h; rw [hfind]
    rw [hval]
    intro cc h1 h2
    exact findFwd_none hfind cc (by omega) (by omega)
  | some c0 =>
    have hval : b.f_max_h sq = c0 - 1 := by unfold Board.f_max_h; rw [hfind]
    obtain ⟨hp, h2, h3, hclear⟩ := findFwd_some hfind
    rw [hval]
    intro cc hc1 hc2
    exact hclear cc (by omega) (by omega)

/-! ### Characterization of the candidate move lists -/

theorem Board.mem_moves_between_vhv {b : Board} {s d : Square} {mv : Move}
    (h : mv ∈ b.moves_between_vhv s d) :
    s.c ≠ d.c ∧ ∃ r, mv = Move.new_vhv s d r ∧
      max (b.f_min_v s) (b.f_min_v d) ≤ r ∧ r ≤ min (b.f_max_v s) (b.f_max_v d) ∧
      ∀ c, min s.c d.c + 1 ≤ c → c ≤ max s.c d.c - 1 →
        (b.get ⟨c, r⟩).is_empty = true := by
  unfold Board.moves_between_vhv at h
  split at h
  · simp at h
  · next hne =>
    simp only [List.mem_map, List.mem_filter] at h
    obtain ⟨r, ⟨hrange, hall⟩, rfl⟩ := h
    rw [List.mem_range'_1] at hrange
    refine ⟨hne, r, rfl, by omega, by omega, fun c h1 h2 => ?_⟩
    rw [List.all_eq_true] at hall
    exact hall c (List.mem_range'_1.mpr ⟨h1, by omega⟩)

theorem Board.mem_moves_between_hvh {b : Board} {s d : Square} {mv : Move}
    (h : mv ∈ b.moves_between_hvh s d) :
    s.r ≠ d.r ∧ ∃ c, mv = Move.new_hvh s d c ∧
      max (b.f_min_h s) (b.f_min_h d) ≤ c ∧ c ≤ min (b.f_max_h s) (b.f_max_h d) ∧
      ∀ r, min s.r d.r + 1 ≤ r → r ≤ max s.r d.r - 1 →
        (b.get ⟨c, r⟩).is_empty = true := by
  unfold Board.moves_between_hvh at h
  split at h
  · simp at h
  · next hne =>
    simp only [List.mem_map, List.mem_filter] at h
    obtain ⟨c, ⟨hrange, hall⟩, rfl⟩ := h
    rw [List.mem_range'_1] at hrange
    refine ⟨hne, c, rfl, by omega, by omega, fun r h1 h2 => ?_⟩
    rw [List.all_eq_true] at hall
    exact hall r (List.mem_range'_1.mpr ⟨h1, by omega⟩)

theorem Board.mem_moves_between {b : Board} {s d : Square} {mv : Move}
    (h : mv ∈ b.moves_between s d) :
    s ≠ d ∧ (b.get s).is_same_tile (b.get d) = true ∧
      (mv ∈ b.moves_between_vhv s d ∨ mv ∈ b.moves_between_hvh s d) := by
  unfold Board.moves_between at h
  split at h
  · simp at h
  · next hcond =>
    push_neg at hcond
    rw [List.mem_append] at h
    exact ⟨hcond.1, by simpa using hcond.2, h⟩

theorem Board.empty_of_not_tile {b : Board} {x : Square}
    (h : (b.get x).is_tile = false) : (b.get x).is_empty = true := by
  rw [BoardCell.is_empty_eq_not_is_tile, h]; rfl

theorem bends_le_of_length {path : List Square} (h : path.length ≤ 4) :
    bends path ≤ 2 := by
  calc bends path ≤ ((segAxes path).zip (segAxes path).tail).length :=
        List.countP_le_length _
    _ ≤ 2 := by
        rw [List.length_zip, List.length_tail]
        unfold segAxes
        rw [List.length_map, List.length_zip, List.length_tail]
        omega

theorem Board.pathSpec_new_vhv {b : Board} {s d : Square} {r : Nat} (hne : s.c ≠ d.c)
    (hmin : max (b.f_min_v s) (b.f_min_v d) ≤ r)
    (hmax : r ≤ min (b.f_max_v s) (b.f_max_v d)) :
    PathSpec b s d (Move.new_vhv s d r) := by
  have hs : s.r ≠ r → (b.get ⟨s.c, r⟩).is_empty = true := by
    intro hsr
    apply Board.empty_of_not_tile
    rcases Nat.lt_or_ge r s.r with h | h
    · exact (b.f_min_v_spec s).2 r (by omega) h
    · exact b.f_max_v_spec s r (by omega) (by omega)
  have hd : d.r ≠ r → (b.get ⟨d.c, r⟩).is_empty = true := by
    intro hdr
    apply Board.empty_of_not_tile
    rcases Nat.lt_or_ge r d.r with h | h
    · exact (b.f_min_v_spec d).2 r (by omega) h
    · exact b.f_max_v_spec d r (by omega) (by omega)
  by_cases h1 : s.r = r <;> by_cases h2 : d.r = r
  · have hpath : Move.new_vhv s d r = ⟨[s, d]⟩ := by simp [Move.new_vhv, h1, h2]
    rw [hpath]
    refine ⟨by simp, by simp, rfl, rfl, ?_, bends_le_of_length (by simp), by simp⟩
    exact List.chain'_pair.mpr (Or.inr ⟨hne, by omega⟩)
  · have hpath : Move.new_vhv s d r = ⟨[s, ⟨d.c, r⟩, d]⟩ := by
      simp [Move.new_vhv, h1, h2]
    rw [hpath]
    refine ⟨by simp, by simp, rfl, rfl, ?_, bends_le_of_length (by simp), ?_⟩
    · refine List.chain'_cons.mpr ⟨Or.inr ⟨hne, h1⟩, ?_⟩
      exact List.chain'_pair.mpr (Or.inl ⟨rfl, fun hh => h2 hh.symm⟩)
    · intro p hp
      simp only [List.drop, List.dropLast, List.mem_singleton] at hp
      subst hp
      exact hd h2
  · have hpath : Move.new_vhv s d r = ⟨[s, ⟨s.c, r⟩, d]⟩ := by
      simp [Move.new_vhv, h1, h2]
    rw [hpath]
    refine ⟨by simp, by simp, rfl, rfl, ?_, bends_le_of_length (by simp), ?_⟩
    · refine List.chain'_cons.mpr ⟨Or.inl ⟨rfl, h1⟩, ?_⟩
      exact List.chain'_pair.mpr (Or.inr ⟨hne, h2.symm⟩)
    · intro p hp
      simp only [List.drop, List.dropLast, List.mem_singleton] at hp
      subst hp
      exact hs h1
  · have hpath : Move.new_vhv s d r = ⟨[s, ⟨s.c, r⟩, ⟨d.c, r⟩, d]⟩ := by
      simp [Move.new_vhv, h1, h2]
    rw [hpath]
    refine ⟨by simp, by simp, rfl, rfl, ?_, bends_le_of_length (by simp), ?_⟩
    · refine List.chain'_cons.mpr ⟨Or.inl ⟨rfl, h1⟩, ?_⟩
      refine List.chain'_cons.mpr ⟨Or.inr ⟨hne, rfl⟩, ?_⟩
      exact List.chain'_pair.mpr (Or.inl ⟨rfl, fun hh => h2 hh.symm⟩)
    · intro p hp
      simp only [List.drop, List.dropLast, List.mem_cons, List.mem_singleton] at hp
      rcases hp with hp | hp
      · subst hp; exact hs h1
      · rcases hp with hp | hp
        · subst hp; exact hd h2
        · simp at hp

theorem Board.pathSpec_new_hvh {b : Board} {s d : Square} {c : Nat} (hne : s.r ≠ d.r)
    (hmin : max (b.f_min_h s) (b.f_min_h d) ≤ c)
    (hmax : c ≤ min (b.f_max_h s) (b.f_max_h d)) :
    PathSpec b s d (Move.new_hvh s d c) := by
  have hs : s.c ≠ c → (b.get ⟨c, s.r⟩).is_empty = true := by
    intro hsc
    apply Board.empty_of_not_tile
    rcases Nat.lt_or_ge c s.c with h | h
    · exact (b.f_min_h_spec s).2 c (by omega) h
    · exact b.f_max_h_spec s c (by omega) (by omega)
  have hd : d.c ≠ c → (b.get ⟨c, d.r⟩).is_empty = true := by
    intro hdc
    apply Board.empty_of_not_tile
    rcases Nat.lt_or_ge c d.c with h | h
    · exact (b.f_min_h_spec d).2 c (by omega) h
    · exact b.f_max_h_spec d c (by omega) (by omega)
  by_cases h1 : s.c = c <;> by_cases h2 : d.c = c
  · have hpath : Move.new_hvh s d c = ⟨[s, d]⟩ := by simp [Move.new_hvh, h1, h2]
    rw [hpath]
    refine ⟨by simp, by simp, rfl, rfl, ?_, bends_le_of_length (by simp), by simp⟩
    exact List.chain'_pair.mpr (Or.inl ⟨by omega, hne⟩)
  · have hpath : Move.new_hvh s d c = ⟨[s, ⟨c, d.r⟩, d]⟩ := by
      simp [Move.new_hvh, h1, h2]
    rw [hpath]
    refine ⟨by simp, by simp, rfl, rfl, ?_, bends_le_of_length (by simp), ?_⟩
    · refine List.chain'_cons.mpr ⟨Or.inl ⟨h1, hne⟩, ?_⟩
      exact List.chain'_pair.mpr (Or.inr ⟨fun hh => h2 hh.symm, rfl⟩)
    · intro p hp
      simp only [List.drop, List.dropLast, List.mem_singleton] at hp
      subst hp
      exact hd h2
  · have hpath : Move.new_hvh s d c = ⟨[s, ⟨c, s.r⟩, d]⟩ := by
      simp [Move.new_hvh, h1, h2]
    rw [hpath]
    refine ⟨by simp, by simp, rfl, rfl, ?_, bends_le_of_length (by simp), ?_⟩
    · refine List.chain'_cons.mpr ⟨Or.inr ⟨h1, rfl⟩, ?_⟩
      exact List.chain'_pair.mpr (Or.inl ⟨h2.symm, hne⟩)
    · intro p hp
      simp only [List.drop, List.dropLast, List.mem_singleton] at hp
      subst hp
      exact hs h1
  · have hpath : Move.new_hvh s d c = ⟨[s, ⟨c, s.r⟩, ⟨c, d.r⟩, d]⟩ := by
      simp [Move.new_hvh, h1, h2]
    rw [hpath]
    refine ⟨by simp, by simp, rfl, rfl, ?_, bends_le_of_length (by simp), ?_⟩
    · refine List.chain'_cons.mpr ⟨Or.inr ⟨h1, rfl⟩, ?_⟩
      refine List.chain'_cons.mpr ⟨Or.inl ⟨rfl, hne⟩, ?_⟩
      exact List.chain'_pair.mpr (Or.inr ⟨fun hh => h2 hh.symm, rfl⟩)
    · intro p hp
      simp only [List.drop, List.dropLast, List.mem_cons, List.mem_singleton] at hp
      rcases hp with hp | hp
      · subst hp; exact hs h1
      · rcases hp with hp | hp
        · subst hp; exact hd h2
        · simp at hp

theorem Board.pathSpec_of_mem_moves_between {b : Board} {s d : Square} {mv : Move}
    (h : mv ∈ b.moves_between s d) : PathSpec b s d mv := by
  obtain ⟨hne, hsame, hor⟩ := Board.mem_moves_between h
  rcases hor with hv | hv
  · obtain ⟨hcne, r, rfl, hmin, hmax, _⟩ := Board.mem_moves_between_vhv hv
    exact Board.pathSpec_new_vhv hcne hmin hmax
  · obtain ⟨hrne, c, rfl, hmin, hmax, _⟩ := Board.mem_moves_between_hvh hv
    exact Board.pathSpec_new_hvh hrne hmin hmax

/-! ### Selection lemmas: head of the move list, minimum by key -/

theorem Board.mem_of_find_move_between {b : Board} {s d : Square} {mv : Move}
    (h : b.find_move_between s d = some mv) : mv ∈ b.moves_between s d := by
  unfold Board.find_move_between at h
  cases hl : b.moves_between s d with
  | nil => rw [hl] at h; simp at h
  | cons a t =>
    rw [hl] at h
    simp only [List.head?_cons] at h
    injection h with h
    rw [← h]
    exact List.mem_cons_self a t

theorem minByKeyLast_spec {f : Move → Nat} {l : List Move} {m : Move}
    (h : Board.minByKeyLast f l = some m) :
    m ∈ l ∧ ∀ x ∈ l, f m ≤ f x := by
  have main : ∀ (t : List Move) (acc : Option Move) (m : Move),
      t.foldl (Board.minByKeyStep f) acc = some m →
      (acc = some m ∨ m ∈ t) ∧ (∀ x ∈ t, f m ≤ f x) ∧
        (∀ y, acc = some y → f m ≤ f y) := by
    intro t
    induction t with
    | nil =>
      intro acc m h
      simp only [List.foldl_nil] at h
      refine ⟨Or.inl h, by simp, fun y hy => ?_⟩
      rw [h] at hy
      injection hy with hy
      rw [hy]
    | cons a t ih =>
      intro acc m h
      rw [List.foldl_cons] at h
      cases acc with
      | none =>
        simp only [Board.minByKeyStep] at h
        obtain ⟨h1, h2, h3⟩ := ih (some a) m h
        refine ⟨?_, ?_, ?_⟩
        · rcases h1 with h1 | h1
          · injection h1 with h1
            exact Or.inr (by rw [← h1]; exact List.mem_cons_self a t)
          · exact Or.inr (List.mem_cons_of_mem a h1)
        · intro x hx
          rcases List.mem_cons.mp hx with hx | hx
          · rw [hx]; exact h3 a rfl
          · exact h2 x hx
        · intro y hy; simp at hy
      | some z =>
        simp only [Board.minByKeyStep] at h
        by_cases hle : f a ≤ f z
        · rw [if_pos hle] at h
          obtain ⟨h1, h2, h3⟩ := ih (some a) m h
          refine ⟨?_, ?_, ?_⟩
          · rcases h1 with h1 | h1
            · injection h1 with h1
              exact Or.inr (by rw [← h1]; exact List.mem_cons_self a t)
            · exact Or.inr (List.mem_cons_of_mem a h1)
          · intro x hx
            rcases List.mem_cons.mp hx with hx | hx
            · rw [hx]; exact h3 a rfl
            · exact h2 x hx
          · intro y hy
            injection hy with hy
            rw [← hy]
            exact le_trans (h3 a rfl) hle
        · rw [if_neg hle] at h
          obtain ⟨h1, h2, h3⟩ := ih (some z) m h
          refine ⟨?_, ?_, ?_⟩
          · rcases h1 with h1 | h1
            · exact Or.inl h1
            · exact Or.inr (List.mem_cons_of_mem a h1)
          · intro x hx
            rcases List.mem_cons.mp hx with hx | hx
            · rw [hx]
              have := h3 z rfl
              omega
            · exact h2 x hx
          · intro y hy
            injection hy with hy
            rw [← hy]
            exact h3 z rfl
  obtain ⟨h1, h2, _⟩ := main l none m h
  rcases h1 with h1 | h1
  · simp at h1
  · exact ⟨h1, h2⟩

theorem Board.moves_between_eq_append_of_ne_nil {b : Board} {s d : Square}
    (h : b.moves_between s d ≠ []) :
    b.moves_between s d = b.moves_between_vhv s d ++ b.moves_between_hvh s d := by
  unfold Board.moves_between at *
  split at h
  · simp at h
  · next hcond => rw [if_neg hcond]

/-! ### C6, C10, C3, C2: properties of the move queries -/

/-- C6: `find_move_between` (and `shortest_move_between`) return nothing when
the two squares coincide or their cells are not matching tiles. -/
theorem find_move_between_invalid_none (b : Board) (s d : Square)
    (h : s = d ∨ (b.get s).is_same_tile (b.get d) = false) :
    b.find_move_between s d = none ∧ b.shortest_move_between s d = none := by
  have hmb : b.moves_between s d = [] := by
    unfold Board.moves_between
    rw [if_pos h]
  constructor
  · unfold Board.find_move_between
    rw [hmb]
    rfl
  · unfold Board.shortest_move_between
    rw [hmb]
    rfl

/-- Witness for C6 at a concrete input: the degenerate pair on `trapBoard`
and a mismatched pair. -/
theorem find_move_between_invalid_none_witness :
    (trapBoard.find_move_between ⟨1, 1⟩ ⟨1, 1⟩ = none ∧
      trapBoard.shortest_move_between ⟨1, 1⟩ ⟨1, 1⟩ = none) ∧
    (trapBoard.find_move_between ⟨1, 1⟩ ⟨2, 1⟩ = none ∧
      trapBoard.shortest_move_between ⟨1, 1⟩ ⟨2, 1⟩ = none) :=
  ⟨find_move_between_invalid_none trapBoard ⟨1, 1⟩ ⟨1, 1⟩ (Or.inl rfl),
   find_move_between_invalid_none trapBoard ⟨1, 1⟩ ⟨2, 1⟩ (Or.inr (by decide))⟩

theorem Board.moves_between_vhv_nil_symm (b : Board) (s d : Square) :
    b.moves_between_vhv s d = [] ↔ b.moves_between_vhv d s = [] := by
  unfold Board.moves_between_vhv
  by_cases h : s.c = d.c
  · rw [if_pos h, if_pos h.symm]
  · rw [if_neg h, if_neg (fun hh => h hh.symm)]
    simp only [List.map_eq_nil_iff]
    rw [Nat.max_comm (Board.f_min_v b d) (Board.f_min_v b s),
      Nat.min_comm (Board.f_max_v b d) (Board.f_max_v b s),
      Nat.min_comm d.c s.c, Nat.max_comm d.c s.c]

theorem Board.moves_between_hvh_nil_symm (b : Board) (s d : Square) :
    b.moves_between_hvh s d = [] ↔ b.moves_between_hvh d s = [] := by
  unfold Board.moves_between_hvh
  by_cases h : s.r = d.r
  · rw [if_pos h, if_pos h.symm]
  · rw [if_neg h, if_neg (fun hh => h hh.symm)]
    simp only [List.map_eq_nil_iff]
    rw [Nat.max_comm (Board.f_min_h b d) (Board.f_min_h b s),
      Nat.min_comm (Board.f_max_h b d) (Board.f_max_h b s),
      Nat.min_comm d.r s.r, Nat.max_comm d.r s.r]

theorem Board.moves_between_nil_symm (b : Board) (s d : Square) :
    b.moves_between s d = [] ↔ b.moves_between d s = [] := by
  unfold Board.moves_between
  by_cases h : s = d ∨ (b.get s).is_same_tile (b.get d) = false
  · have h' : d = s ∨ (b.get d).is_same_tile (b.get s) = false := by
      rcases h with h | h
      · exact Or.inl h.symm
      · exact Or.inr (by rw [BoardCell.is_same_tile_comm]; exact h)
    rw [if_pos h, if_pos h']
  · have h' : ¬(d = s ∨ (b.get d).is_same_tile (b.get s) = false) := by
      intro hh
      apply h
      rcases hh with hh | hh
      · exact Or.inl hh.symm
      · exact Or.inr (by rw [BoardCell.is_same_tile_comm]; exact hh)
    rw [if_neg h, if_neg h']
    simp only [List.append_eq_nil]
    rw [Board.moves_between_vhv_nil_symm, Board.moves_between_hvh_nil_symm]

/-- C10: a legal move between `a` and `b` exists exactly when one exists
between `b` and `a`. -/
theorem find_move_between_isSome_symm (b : Board) (x y : Square) :
    (b.find_move_between x y).isSome = (b.find_move_between y x).isSome := by
  unfold Board.find_move_between
  have h := b.moves_between_nil_symm x y
  cases hl : b.moves_between x y with
  | nil => rw [h.mp hl]
  | cons a t =>
    cases hl' : b.moves_between y x with
    | nil =>
      have hnil : b.moves_between x y = [] := h.mpr hl'
      rw [hnil] at hl
      simp at hl
    | cons a' t' => rfl

/-- C3: a move returned by `shortest_move_between` has path distance at most
that of every VHV or HVH candidate between the two squares. -/
theorem shortest_move_between_minimal (b : Board) (s d : Square) (mv : Move)
    (h : b.shortest_move_between s d = some mv) :
    ∀ mv' ∈ b.moves_between_vhv s d ++ b.moves_between_hvh s d,
      mv.path_distance ≤ mv'.path_distance := by
  unfold Board.shortest_move_between at h
  obtain ⟨hmem, hmin⟩ := minByKeyLast_spec h
  have hne : b.moves_between s d ≠ [] := by
    intro hh
    rw [hh] at hmem
    simp at hmem
  intro mv' hmv'
  apply hmin
  rw [Board.moves_between_eq_append_of_ne_nil hne]
  exact hmv'

/-- C2: every returned move's path runs from the queried source to the queried
destination in 2 to 4 axis-aligned steps, bends at most twice, and its
intermediate points are empty on the board it was computed from. -/
theorem returned_move_path_spec :
    (∀ (b : Board) (s d : Square) (mv : Move),
        b.find_move_between s d = some mv → PathSpec b s d mv) ∧
    (∀ (b : Board) (s d : Square) (mv : Move),
        b.shortest_move_between s d = some mv → PathSpec b s d mv) ∧
    (∀ (b : Board) (mv : Move), b.find_move = some mv →
        ∃ s d, (s, d) ∈ Board.pairs2 b.squares_inner ∧ PathSpec b s d mv) ∧
    (∀ (b : Board) (prs : List (Square × Square)) (mv : Move),
        b.randomMoveWith prs = some mv → ∃ s d, (s, d) ∈ prs ∧ PathSpec b s d mv) := by
  have h1 : ∀ (b : Board) (s d : Square) (mv : Move),
      b.find_move_between s d = some mv → PathSpec b s d mv := fun b s d mv h =>
    Board.pathSpec_of_mem_moves_between (Board.mem_of_find_move_between h)
  have h2 : ∀ (b : Board) (s d : Square) (mv : Move),
      b.shortest_move_between s d = some mv → PathSpec b s d mv := by
    intro b s d mv h
    unfold Board.shortest_move_between at h
    exact Board.pathSpec_of_mem_moves_between (minByKeyLast_spec h).1
  refine ⟨h1, h2, ?_, ?_⟩
  · intro b mv h
    unfold Board.find_move at h
    obtain ⟨p, hp, hfind⟩ := List.exists_of_findSome?_eq_some h
    exact ⟨p.1, p.2, hp, h1 b p.1 p.2 mv hfind⟩
  · intro b prs mv h
    unfold Board.randomMoveWith at h
    obtain ⟨p, hp, hfind⟩ := List.exists_of_findSome?_eq_some h
    exact ⟨p.1, p.2, hp, h1 b p.1 p.2 mv hfind⟩

/-- Witness for C2: the move `find_move_between` returns between the two
kind-0 tiles `(4,1)` and `(7,1)` of `trapBoard` satisfies the path shape. -/
theorem returned_move_path_spec_witness :
    trapBoard.find_move_between ⟨4,1⟩ ⟨7,1⟩ =
      some ⟨[⟨4,1⟩, ⟨4,0⟩, ⟨7,0⟩, ⟨7,1⟩]⟩ ∧
    PathSpec trapBoard ⟨4,1⟩ ⟨7,1⟩ ⟨[⟨4,1⟩, ⟨4,0⟩, ⟨7,0⟩, ⟨7,1⟩]⟩ :=
  ⟨by decide,
   returned_move_path_spec.1 trapBoard ⟨4,1⟩ ⟨7,1⟩ ⟨[⟨4,1⟩, ⟨4,0⟩, ⟨7,0⟩, ⟨7,1⟩]⟩
     (by decide)⟩

/-- Witness for C3 at a concrete input. -/
theorem shortest_move_between_minimal_witness :
    trapBoard.shortest_move_between ⟨4,1⟩ ⟨7,1⟩ =
      some ⟨[⟨4,1⟩, ⟨4,0⟩, ⟨7,0⟩, ⟨7,1⟩]⟩ ∧
    (Move.mk [⟨4,1⟩, ⟨4,0⟩, ⟨7,0⟩, ⟨7,1⟩]).path_distance ≤
      (Move.mk [⟨4,1⟩, ⟨4,0⟩, ⟨7,0⟩, ⟨7,1⟩]).path_distance :=
  ⟨by decide,
   shortest_move_between_minimal trapBoard ⟨4,1⟩ ⟨7,1⟩
     ⟨[⟨4,1⟩, ⟨4,0⟩, ⟨7,0⟩, ⟨7,1⟩]⟩ (by decide)
     ⟨[⟨4,1⟩, ⟨4,0⟩, ⟨7,0⟩, ⟨7,1⟩]⟩ (by decide)⟩

/-! ### C5: the frame effect of `do_move` -/

theorem Move.src_new_vhv (s d : Square) (r : Nat) : (Move.new_vhv s d r).src = s := by
  unfold Move.new_vhv Move.src
  by_cases h1 : s.r = r <;> by_cases h2 : d.r = r <;> simp [h1, h2]

theorem Move.dst_new_vhv (s d : Square) (r : Nat) : (Move.new_vhv s d r).dst = d := by
  unfold Move.new_vhv Move.dst
  by_cases h1 : s.r = r <;> by_cases h2 : d.r = r <;> simp [h1, h2]

theorem Move.src_new_hvh (s d : Square) (c : Nat) : (Move.new_hvh s d c).src = s := by
  unfold Move.new_hvh Move.src
  by_cases h1 : s.c = c <;> by_cases h2 : d.c = c <;> simp [h1, h2]

theorem Move.dst_new_hvh (s d : Square) (c : Nat) : (Move.new_hvh s d c).dst = d := by
  unfold Move.new_hvh Move.dst
  by_cases h1 : s.c = c <;> by_cases h2 : d.c = c <;> simp [h1, h2]

theorem Board.src_dst_of_mem_moves_between {b : Board} {s d : Square} {mv : Move}
    (h : mv ∈ b.moves_between s d) : mv.src = s ∧ mv.dst = d := by
  obtain ⟨-, -, hor⟩ := Board.mem_moves_between h
  rcases hor with hv | hv
  · obtain ⟨-, r, rfl, -⟩ := Board.mem_moves_between_vhv hv
    exact ⟨Move.src_new_vhv s d r, Move.dst_new_vhv s d r⟩
  · obtain ⟨-, c, rfl, -⟩ := Board.mem_moves_between_hvh hv
    exact ⟨Move.src_new_hvh s d c, Move.dst_new_hvh s d c⟩

theorem Board.squares_nodup (b : Board) : b.squares.Nodup := by
  unfold Board.squares
  rw [List.nodup_flatMap]
  constructor
  · intro r hr
    exact (List.nodup_range b.ncol).map (fun c1 c2 h => by injection h)
  · apply List.Pairwise.imp ?_ (List.pairwise_lt_range b.nrow)
    intro r1 r2 hlt sq hsq1 hsq2
    simp only [List.mem_map, List.mem_range] at hsq1 hsq2
    obtain ⟨c1, -, rfl⟩ := hsq1
    obtain ⟨c2, -, he⟩ := hsq2
    injection he with hec her
    omega

theorem Board.squares_inner_nodup (b : Board) : b.squares_inner.Nodup :=
  (Board.squares_nodup b).filter _

theorem countP_update_one {l : List Square} (hnd : l.Nodup) {s : Square}
    (hs : s ∈ l) (f g : Square → Bool)
    (hfs : f s = true) (hgs : g s = false)
    (hother : ∀ x ∈ l, x ≠ s → g x = f x) :
    l.countP g + 1 = l.countP f := by
  induction l with
  | nil => simp at hs
  | cons a t ih =>
    rw [List.countP_cons, List.countP_cons]
    have hat : a ∉ t := (List.nodup_cons.mp hnd).1
    have hndt : t.Nodup := (List.nodup_cons.mp hnd).2
    by_cases has : a = s
    · subst has
      rw [hfs, hgs]
      have heq : t.countP g = t.countP f := by
        apply List.countP_congr
        intro x hx
        have hxa : x ≠ a := fun hh => hat (hh ▸ hx)
        rw [hother x (List.mem_cons_of_mem a hx) hxa]
      simp
      omega
    · have hst : s ∈ t := by
        rcases List.mem_cons.mp hs with h | h
        · exact absurd h.symm has
        · exact h
      have hga : g a = f a := hother a (List.mem_cons_self a t) has
      have := ih hndt hst (fun x hx hxs => hother x (List.mem_cons_of_mem a hx) hxs)
      rw [hga]
      omega

theorem countP_update_two {l : List Square} (hnd : l.Nodup) {s d : Square}
    (hs : s ∈ l) (hd : d ∈ l) (hne : s ≠ d) (f g : Square → Bool)
    (hfs : f s = true) (hfd : f d = true) (hgs : g s = false) (hgd : g d = false)
    (hother : ∀ x ∈ l, x ≠ s → x ≠ d → g x = f x) :
    l.countP g + 2 = l.countP f := by
  have h1 : l.countP (fun x => if x = s then false else f x) + 1 = l.countP f := by
    apply countP_update_one hnd hs f _ hfs
    · simp
    · intro x hx hxs
      simp [hxs]
  have hds : ¬d = s := fun hh => hne hh.symm
  have h2 : l.countP g + 1 = l.countP (fun x => if x = s then false else f x) := by
    refine countP_update_one hnd hd (fun x => if x = s then false else f x) g ?_ hgd ?_
    · show (if d = s then false else f d) = true
      rw [if_neg hds, hfd]
    · intro x hx hxd
      by_cases hxs : x = s
      · subst hxs
        show g x = if x = x then false else f x
        simp [hgs]
      · show g x = if x = s then false else f x
        rw [if_neg hxs]
        exact hother x hx hxs hxd
  omega

theorem Board.squares_inner_set (b : Board) (sq : Square) (x : BoardCell) :
    (b.set sq x).squares_inner = b.squares_inner := rfl

theorem Board.tileCount_eq_countP (b : Board) :
    b.tileCount = b.squares_inner.countP (fun sq => (b.get sq).is_tile) := by
  unfold Board.tileCount Board.innerCells
  rw [← List.countP_eq_length_filter, List.countP_map]
  rfl

/-- C5: `do_move` on a move computed between two interior squares of the
current board empties exactly those two squares, leaves every other grid cell
unchanged, and lowers the tile count by exactly two. -/
theorem do_move_frame (b : Board) (s d : Square) (mv : Move)
    (hw : b.Wf) (hs : s ∈ b.squares_inner) (hd : d ∈ b.squares_inner)
    (hmv : mv ∈ b.moves_between s d) :
    (b.do_move mv).get s = .Empty ∧ (b.do_move mv).get d = .Empty ∧
    (∀ sq, b.SqIn sq → sq ≠ s → sq ≠ d → (b.do_move mv).get sq = b.get sq) ∧
    (b.do_move mv).tileCount + 2 = b.tileCount := by
  obtain ⟨hsrc, hdst⟩ := Board.src_dst_of_mem_moves_between hmv
  obtain ⟨hsd, hsame, -⟩ := Board.mem_moves_between hmv
  have hdo : b.do_move mv = (b.set s .Empty).set d .Empty := by
    unfold Board.do_move
    rw [hsrc, hdst]
  have hsin := Board.sqIn_of_mem_inner hs
  have hdin := Board.sqIn_of_mem_inner hd
  have hsl : b.sq2idx s < b.cells.length := b.sq2idx_lt s hsin hw
  have hdl : b.sq2idx d < b.cells.length := b.sq2idx_lt d hdin hw
  have hidx : b.sq2idx s ≠ b.sq2idx d := fun he => hsd (b.sq2idx_inj hsin.1 hdin.1 he)
  have hget_s : (b.do_move mv).get s = .Empty := by
    rw [hdo, Board.get_set_ne (b.set s .Empty) d s .Empty (fun he => hidx he.symm),
      Board.get_set_self b s .Empty hsl]
  have hget_d : (b.do_move mv).get d = .Empty := by
    rw [hdo]
    apply Board.get_set_self
    rw [Board.length_cells_set]
    exact hdl
  have hframe : ∀ sq, b.SqIn sq → sq ≠ s → sq ≠ d → (b.do_move mv).get sq = b.get sq := by
    intro sq hin hns hnd
    have h1 : b.sq2idx d ≠ b.sq2idx sq :=
      fun he => hnd (b.sq2idx_inj hdin.1 hin.1 he).symm
    have h2 : b.sq2idx s ≠ b.sq2idx sq :=
      fun he => hns (b.sq2idx_inj hsin.1 hin.1 he).symm
    rw [hdo, Board.get_set_ne (b.set s .Empty) d sq .Empty h1,
      Board.get_set_ne b s sq .Empty h2]
  refine ⟨hget_s, hget_d, hframe, ?_⟩
  rw [Board.tileCount_eq_countP, Board.tileCount_eq_countP]
  have hsqi : (b.do_move mv).squares_inner = b.squares_inner := by
    rw [hdo, Board.squares_inner_set, Board.squares_inner_set]
  rw [hsqi]
  apply countP_update_two (b.squares_inner_nodup) hs hd hsd
  · exact BoardCell.is_tile_of_same_left hsame
  · exact BoardCell.is_tile_of_same_right hsame
  · rw [hget_s]; rfl
  · rw [hget_d]; rfl
  · intro x hx hxs hxd
    rw [hframe x (Board.sqIn_of_mem_inner hx) hxs hxd]

/-- Witness for C5: removing the first kind-0 pair of `trapBoard`. -/
theorem do_move_frame_witness :
    (trapBoard.do_move ⟨[⟨4,1⟩, ⟨4,0⟩, ⟨7,0⟩, ⟨7,1⟩]⟩).get ⟨4,1⟩ = .Empty ∧
    (trapBoard.do_move ⟨[⟨4,1⟩, ⟨4,0⟩, ⟨7,0⟩, ⟨7,1⟩]⟩).get ⟨7,1⟩ = .Empty ∧
    (∀ sq, trapBoard.SqIn sq → sq ≠ ⟨4,1⟩ → sq ≠ ⟨7,1⟩ →
      (trapBoard.do_move ⟨[⟨4,1⟩, ⟨4,0⟩, ⟨7,0⟩, ⟨7,1⟩]⟩).get sq = trapBoard.get sq) ∧
    (trapBoard.do_move ⟨[⟨4,1⟩, ⟨4,0⟩, ⟨7,0⟩, ⟨7,1⟩]⟩).tileCount + 2 =
      trapBoard.tileCount :=
  do_move_frame trapBoard ⟨4,1⟩ ⟨7,1⟩ ⟨[⟨4,1⟩, ⟨4,0⟩, ⟨7,0⟩, ⟨7,1⟩]⟩
    (by unfold Board.Wf; decide) (by decide) (by decide) (by decide)

/-! ### C7 and C8: construction of the empty board -/

theorem get_replicate_empty (nc nr n : Nat) (sq : Square) :
    (Board.mk nc nr (List.replicate n .Empty)).get sq = .Empty := by
  unfold Board.get
  rw [List.getD_eq_getElem?_getD, List.getElem?_replicate]
  split <;> rfl

/-- C7: with `NonZeroUsize` arguments, `Board::empty` panics exactly when both
inner dimensions are odd or the size arithmetic overflows `usize`; otherwise it
returns the bordered all-empty grid. -/
theorem empty_panic_condition (ci ri : Nat) (hc : 0 < ci) (hr : 0 < ri) :
    (Board.empty? ci ri = none ↔
      (ci % 2 = 1 ∧ ri % 2 = 1) ∨ ci + 2 > USIZE_MAX ∨ ri + 2 > USIZE_MAX ∨
        (ci + 2) * (ri + 2) > USIZE_MAX) ∧
    (∀ b, Board.empty? ci ri = some b →
      b.ncol = ci + 2 ∧ b.nrow = ri + 2 ∧
      b.cells = List.replicate ((ci + 2) * (ri + 2)) .Empty) := by
  unfold Board.empty?
  rw [if_neg (by omega)]
  by_cases h1 : ¬(ci % 2 = 0 ∨ ri % 2 = 0)
  · rw [if_pos h1]
    refine ⟨Iff.intro (fun _ => Or.inl ⟨by omega, by omega⟩) (fun _ => rfl), ?_⟩
    intro b hb
    simp at hb
  · rw [if_neg h1]
    push_neg at h1
    by_cases h2 : ci + 2 > USIZE_MAX ∨ ri + 2 > USIZE_MAX
    · rw [if_pos h2]
      refine ⟨Iff.intro (fun _ => Or.inr (by omega)) (fun _ => rfl), ?_⟩
      intro b hb
      simp at hb
    · rw [if_neg h2]
      by_cases h3 : (ci + 2) * (ri + 2) > USIZE_MAX
      · rw [if_pos h3]
        refine ⟨Iff.intro (fun _ => Or.inr (Or.inr (Or.inr h3))) (fun _ => rfl), ?_⟩
        intro b hb
        simp at hb
      · rw [if_neg h3]
        constructor
        · constructor
          · intro hh
            exact absurd hh (by simp)
          · intro hh
            exfalso
            rcases hh with hh | hh | hh | hh
            · omega
            · exact h2 (Or.inl hh)
            · exact h2 (Or.inr hh)
            · exact h3 hh
        · intro b hb
          injection hb with hb
          rw [← hb]
          exact ⟨rfl, rfl, rfl⟩

/-- Witness for C7: `3 × 5` (both odd) is rejected, `4 × 7` succeeds with an
all-empty `6 × 9` grid. -/
theorem empty_panic_condition_witness :
    Board.empty? 3 5 = none ∧
    Board.empty? 4 7 = some ⟨6, 9, List.replicate 54 .Empty⟩ := by
  constructor
  · exact (empty_panic_condition 3 5 (by decide) (by decide)).1.mpr (Or.inl (by decide))
  · decide

/-- C8 counterexample: a zero inner dimension (the only way the inner area can
be zero) is rejected by construction — `NonZeroUsize` arguments cannot even be
formed, modelled as `Board.empty?` returning `none` — rather than yielding an
immediately cleared board. -/
theorem empty_zero_area_counterexample :
    0 * 2 = 0 ∧ Board.empty? 0 2 = none ∧ ¬∃ b, Board.empty? 0 2 = some b := by
  refine ⟨rfl, rfl, ?_⟩
  rintro ⟨b, hb⟩
  rw [show Board.empty? 0 2 = none from rfl] at hb
  exact Option.noConfusion hb

/-- C8 amended: a zero interior area is impossible (the dimensions are
`NonZeroUsize`), and every successfully constructed empty board is immediately
cleared — `is_empty` true — and not stuck. -/
theorem empty_board_cleared_not_stuck (ci ri : Nat) (b : Board)
    (h : Board.empty? ci ri = some b) : b.is_empty = true ∧ b.is_stuck = false := by
  have hb : b = ⟨ci + 2, ri + 2, List.replicate ((ci + 2) * (ri + 2)) .Empty⟩ := by
    unfold Board.empty? at h
    split at h
    · exact absurd h (by simp)
    · split at h
      · exact absurd h (by simp)
      · split at h
        · exact absurd h (by simp)
        · split at h
          · exact absurd h (by simp)
          · injection h with h
            rw [← h]
  subst hb
  have hempty : (Board.mk (ci + 2) (ri + 2)
      (List.replicate ((ci + 2) * (ri + 2)) .Empty)).is_empty = true := by
    unfold Board.is_empty
    rw [List.all_eq_true]
    intro sq hsq
    rw [get_replicate_empty]
    rfl
  refine ⟨hempty, ?_⟩
  unfold Board.is_stuck
  rw [hempty]
  rfl

/-- Witness for C8's amended statement at a concrete input. -/
theorem empty_board_cleared_not_stuck_witness :
    Board.empty? 2 2 = some ⟨4, 4, List.replicate 16 .Empty⟩ ∧
    (Board.mk 4 4 (List.replicate 16 .Empty)).is_empty = true ∧
    (Board.mk 4 4 (List.replicate 16 .Empty)).is_stuck = false :=
  ⟨by decide,
   (empty_board_cleared_not_stuck 2 2 _ (by decide)).1,
   (empty_board_cleared_not_stuck 2 2 _ (by decide)).2⟩

/-! ### Writing many cells: `setMany` -/

theorem Board.ncol_setMany (b : Board) (l : List (Square × BoardCell)) :
    (b.setMany l).ncol = b.ncol := by
  induction l generalizing b with
  | nil => rfl
  | cons p t ih =>
    show (Board.setMany (b.set p.1 p.2) t).ncol = b.ncol
    rw [ih (b.set p.1 p.2)]
    rfl

theorem Board.nrow_setMany (b : Board) (l : List (Square × BoardCell)) :
    (b.setMany l).nrow = b.nrow := by
  induction l generalizing b with
  | nil => rfl
  | cons p t ih =>
    show (Board.setMany (b.set p.1 p.2) t).nrow = b.nrow
    rw [ih (b.set p.1 p.2)]
    rfl

theorem Board.length_setMany (b : Board) (l : List (Square × BoardCell)) :
    (b.setMany l).cells.length = b.cells.length := by
  induction l generalizing b with
  | nil => rfl
  | cons p t ih =>
    show (Board.setMany (b.set p.1 p.2) t).cells.length = b.cells.length
    rw [ih (b.set p.1 p.2), Board.length_cells_set]

theorem Board.wf_setMany {b : Board} (l : List (Square × BoardCell)) (h : b.Wf) :
    (b.setMany l).Wf := by
  unfold Board.Wf at *
  rw [Board.length_setMany, Board.ncol_setMany, Board.nrow_setMany]
  exact h

theorem Board.sqIn_setMany {b : Board} (l : List (Square × BoardCell)) (sq : Square) :
    (b.setMany l).SqIn sq ↔ b.SqIn sq := by
  unfold Board.SqIn
  rw [Board.ncol_setMany, Board.nrow_setMany]

theorem Board.get_setMany_of_ne (b : Board) (l : List (Square × BoardCell)) (sq : Square)
    (h : ∀ p ∈ l, b.sq2idx p.1 ≠ b.sq2idx sq) :
    (b.setMany l).get sq = b.get sq := by
  induction l generalizing b with
  | nil => rfl
  | cons p t ih =>
    show (Board.setMany (b.set p.1 p.2) t).get sq = b.get sq
    rw [ih (b.set p.1 p.2) (fun q hq => h q (List.mem_cons_of_mem p hq)),
      Board.get_set_ne b p.1 sq p.2 (h p (List.mem_cons_self p t))]

theorem Board.get_setMany_mem (b : Board) (l : List (Square × BoardCell))
    (sq : Square) (v : BoardCell) (hmem : (sq, v) ∈ l)
    (hpair : l.Pairwise (fun p q => b.sq2idx p.1 ≠ b.sq2idx q.1))
    (hlt : b.sq2idx sq < b.cells.length) :
    (b.setMany l).get sq = v := by
  induction l generalizing b with
  | nil => simp at hmem
  | cons p t ih =>
    rcases List.mem_cons.mp hmem with hp | hp
    · rw [← hp]
      show (Board.setMany (b.set sq v) t).get sq = v
      have hne : ∀ q ∈ t, (b.set sq v).sq2idx q.1 ≠ (b.set sq v).sq2idx sq := by
        intro q hq
        have h0 := (List.pairwise_cons.mp hpair).1 q hq
        rw [← hp] at h0
        exact fun he => h0 he.symm
      rw [Board.get_setMany_of_ne (b.set sq v) t sq hne]
      exact Board.get_set_self b sq v hlt
    · show (Board.setMany (b.set p.1 p.2) t).get sq = v
      apply ih (b.set p.1 p.2) hp ((List.pairwise_cons.mp hpair).2)
      rw [Board.length_cells_set]
      exact hlt

theorem Board.get_eq_of_idx_eq (b : Board) {sq sq' : Square}
    (h : b.sq2idx sq = b.sq2idx sq') : b.get sq = b.get sq' := by
  unfold Board.get
  rw [h]

theorem Board.get_set_cases (b : Board) (t sq : Square) (x : BoardCell) :
    (b.set t x).get sq = x ∨ (b.set t x).get sq = b.get sq := by
  by_cases h : b.sq2idx t = b.sq2idx sq
  · by_cases hl : b.sq2idx t < b.cells.length
    · left
      rw [← Board.get_eq_of_idx_eq (b.set t x) (show (b.set t x).sq2idx t =
        (b.set t x).sq2idx sq from h)]
      exact Board.get_set_self b t x hl
    · right
      unfold Board.get Board.set Board.sq2idx Board.cr2idx at *
      rw [List.getD_eq_getElem?_getD, List.getD_eq_getElem?_getD,
        List.getElem?_eq_none (by simpa using (by omega : b.cells.length ≤ b.ncol * sq.r + sq.c)),
        List.getElem?_eq_none (by omega)]
  · right
    exact Board.get_set_ne b t sq x h

theorem Board.f_max_v_le (b : Board) (sq : Square) : b.f_max_v sq ≤ b.nrow - 1 := by
  cases hfind : (List.range' (sq.r + 1) (b.nrow - (sq.r + 1))).find?
      (fun r => (b.get ⟨sq.c, r⟩).is_tile) with
  | none =>
    have hval : b.f_max_v sq = b.nrow - 1 := by unfold Board.f_max_v; rw [hfind]
    omega
  | some r0 =>
    have hval : b.f_max_v sq = r0 - 1 := by unfold Board.f_max_v; rw [hfind]
    obtain ⟨-, h2, h3, -⟩ := findFwd_some hfind
    omega

theorem Board.f_max_h_le (b : Board) (sq : Square) : b.f_max_h sq ≤ b.ncol - 1 := by
  cases hfind : (List.range' (sq.c + 1) (b.ncol - (sq.c + 1))).find?
      (fun c => (b.get ⟨c, sq.r⟩).is_tile) with
  | none =>
    have hval : b.f_max_h sq = b.ncol - 1 := by unfold Board.f_max_h; rw [hfind]
    omega
  | some c0 =>
    have hval : b.f_max_h sq = c0 - 1 := by unfold Board.f_max_h; rw [hfind]
    obtain ⟨-, h2, h3, -⟩ := findFwd_some hfind
    omega

theorem Board.squares_eq_of_dims {a b : Board} (hc : a.ncol = b.ncol)
    (hr : a.nrow = b.nrow) : a.squares = b.squares := by
  unfold Board.squares
  rw [hc, hr]

theorem Board.squares_inner_eq_of_dims {a b : Board} (hc : a.ncol = b.ncol)
    (hr : a.nrow = b.nrow) : a.squares_inner = b.squares_inner := by
  unfold Board.squares_inner
  rw [Board.squares_eq_of_dims hc hr, hc, hr]

theorem Board.eq_of_get_eq {b1 b2 : Board} (hnc : b1.ncol = b2.ncol)
    (hnr : b1.nrow = b2.nrow) (hw1 : b1.Wf) (hw2 : b2.Wf)
    (h : ∀ sq, b1.SqIn sq → b1.get sq = b2.get sq) : b1 = b2 := by
  have hlen : b1.cells.length = b2.cells.length := by
    rw [hw1, hw2, hnc, hnr]
  have hcells : b1.cells = b2.cells := by
    apply List.ext_getElem hlen
    intro i h1 h2
    have hpos : 0 < b1.ncol := by
      rcases Nat.eq_zero_or_pos b1.ncol with hz | hp
      · rw [hw1, hz] at h1; simp at h1
      · exact hp
    have hc : i % b1.ncol < b1.ncol := Nat.mod_lt i hpos
    have hr : i / b1.ncol < b1.nrow := by
      rw [hw1] at h1
      exact Nat.div_lt_of_lt_mul h1
    have hidx : b1.sq2idx ⟨i % b1.ncol, i / b1.ncol⟩ = i := by
      unfold Board.sq2idx Board.cr2idx
      exact Nat.div_add_mod i b1.ncol
    have hget := h ⟨i % b1.ncol, i / b1.ncol⟩ ⟨hc, hr⟩
    unfold Board.get at hget
    rw [List.getD_eq_getElem?_getD, List.getD_eq_getElem?_getD, hidx] at hget
    have hidx2 : b2.sq2idx ⟨i % b1.ncol, i / b1.ncol⟩ = i := by
      unfold Board.sq2idx Board.cr2idx
      rw [← hnc]
      exact Nat.div_add_mod i b1.ncol
    rw [show b2.sq2idx ⟨i % b1.ncol, i / b1.ncol⟩ = i from hidx2] at hget
    rw [List.getElem?_eq_getElem h1, List.getElem?_eq_getElem h2] at hget
    simpa using hget
  cases b1
  cases b2
  simp_all

/-! ### Congruence: move search depends only on occupancy and endpoint cells -/

theorem BoardCell.empty_of_is_tile_false {x : BoardCell} (h : x.is_tile = false) :
    x = .Empty := by
  cases x
  · rfl
  · simp [BoardCell.is_tile] at h

theorem find?_congr {α : Type} {p q : α → Bool} (l : List α)
    (h : ∀ x ∈ l, p x = q x) : l.find? p = l.find? q := by
  induction l with
  | nil => rfl
  | cons a t ih =>
    simp only [List.find?]
    rw [h a (List.mem_cons_self a t), ih (fun x hx => h x (List.mem_cons_of_mem a hx))]

theorem Board.f_min_v_congr {a a2 : Board}
    (hocc : ∀ sq, a.SqIn sq → (a.get sq).is_tile = (a2.get sq).is_tile)
    {sq : Square} (hin : a.SqIn sq) : a.f_min_v sq = a2.f_min_v sq := by
  have h2 : sq.r < a.nrow := hin.2
  unfold Board.f_min_v
  rw [find?_congr _ (fun r hr => ?_)]
  rw [List.mem_reverse, List.mem_range] at hr
  exact hocc ⟨sq.c, r⟩ ⟨hin.1, show r < a.nrow by omega⟩

theorem Board.f_max_v_congr {a a2 : Board} (hnr : a.nrow = a2.nrow)
    (hocc : ∀ sq, a.SqIn sq → (a.get sq).is_tile = (a2.get sq).is_tile)
    {sq : Square} (hin : a.SqIn sq) : a.f_max_v sq = a2.f_max_v sq := by
  unfold Board.f_max_v
  rw [← hnr, find?_congr _ (fun r hr => ?_)]
  rw [List.mem_range'_1] at hr
  exact hocc ⟨sq.c, r⟩ ⟨hin.1, show r < a.nrow by omega⟩

theorem Board.f_min_h_congr {a a2 : Board}
    (hocc : ∀ sq, a.SqIn sq → (a.get sq).is_tile = (a2.get sq).is_tile)
    {sq : Square} (hin : a.SqIn sq) : a.f_min_h sq = a2.f_min_h sq := by
  have h1 : sq.c < a.ncol := hin.1
  unfold Board.f_min_h
  rw [find?_congr _ (fun c hc => ?_)]
  rw [List.mem_reverse, List.mem_range] at hc
  exact hocc ⟨c, sq.r⟩ ⟨show c < a.ncol by omega, hin.2⟩

theorem Board.f_max_h_congr {a a2 : Board} (hnc : a.ncol = a2.ncol)
    (hocc : ∀ sq, a.SqIn sq → (a.get sq).is_tile = (a2.get sq).is_tile)
    {sq : Square} (hin : a.SqIn sq) : a.f_max_h sq = a2.f_max_h sq := by
  unfold Board.f_max_h
  rw [← hnc, find?_congr _ (fun c hc => ?_)]
  rw [List.mem_range'_1] at hc
  exact hocc ⟨c, sq.r⟩ ⟨show c < a.ncol by omega, hin.2⟩

theorem Board.is_empty_congr_at {a a2 : Board} (hocc : ∀ sq, a.SqIn sq →
    (a.get sq).is_tile = (a2.get sq).is_tile) {sq : Square} (hin : a.SqIn sq) :
    (a.get sq).is_empty = (a2.get sq).is_empty := by
  rw [BoardCell.is_empty_eq_not_is_tile, BoardCell.is_empty_eq_not_is_tile, hocc sq hin]

theorem Board.moves_between_vhv_congr {a a2 : Board} (hnc : a.ncol = a2.ncol)
    (hnr : a.nrow = a2.nrow)
    (hocc : ∀ sq, a.SqIn sq → (a.get sq).is_tile = (a2.get sq).is_tile)
    {s d : Square} (hs : a.SqIn s) (hd : a.SqIn d) :
    a.moves_between_vhv s d = a2.moves_between_vhv s d := by
  have hsc : s.c < a.ncol := hs.1
  have hsr : s.r < a.nrow := hs.2
  have hdc : d.c < a.ncol := hd.1
  have hdr : d.r < a.nrow := hd.2
  by_cases h : s.c = d.c
  · unfold Board.moves_between_vhv
    rw [if_pos h, if_pos h]
  · have e1 : a.f_min_v s = a2.f_min_v s := Board.f_min_v_congr hocc hs
    have e2 : a.f_min_v d = a2.f_min_v d := Board.f_min_v_congr hocc hd
    have e3 : a.f_max_v s = a2.f_max_v s := Board.f_max_v_congr hnr hocc hs
    have e4 : a.f_max_v d = a2.f_max_v d := Board.f_max_v_congr hnr hocc hd
    simp only [Board.moves_between_vhv, if_neg h, ← e1, ← e2, ← e3, ← e4]
    rw [List.filter_congr (fun r hr => ?_)]
    rw [List.mem_range'_1] at hr
    have hrlt : r < a.nrow := by
      have h1 := a.f_max_v_le s
      omega
    rw [Bool.eq_iff_iff, List.all_eq_true, List.all_eq_true]
    have hcin : ∀ c, s.c ⊓ d.c + 1 ≤ c → c < s.c ⊓ d.c + 1 + (s.c ⊔ d.c - 1 + 1 - (s.c ⊓ d.c + 1)) →
        a.SqIn ⟨c, r⟩ := by
      intro c h1 h2
      have hcc : c < a.ncol := by
        have hmax : s.c ⊔ d.c ≤ a.ncol - 1 := by
          rcases Nat.le_total s.c d.c with hh | hh
          · rw [Nat.max_eq_right hh]; omega
          · rw [Nat.max_eq_left hh]; omega
        omega
      exact ⟨hcc, hrlt⟩
    constructor
    · intro hall c hcmem
      have hm := hcmem
      rw [List.mem_range'_1] at hm
      rw [← Board.is_empty_congr_at hocc (hcin c hm.1 hm.2)]
      exact hall c hcmem
    · intro hall c hcmem
      have hm := hcmem
      rw [List.mem_range'_1] at hm
      rw [Board.is_empty_congr_at hocc (hcin c hm.1 hm.2)]
      exact hall c hcmem

theorem Board.moves_between_hvh_congr {a a2 : Board} (hnc : a.ncol = a2.ncol)
    (hnr : a.nrow = a2.nrow)
    (hocc : ∀ sq, a.SqIn sq → (a.get sq).is_tile = (a2.get sq).is_tile)
    {s d : Square} (hs : a.SqIn s) (hd : a.SqIn d) :
    a.moves_between_hvh s d = a2.moves_between_hvh s d := by
  have hsc : s.c < a.ncol := hs.1
  have hsr : s.r < a.nrow := hs.2
  have hdc : d.c < a.ncol := hd.1
  have hdr : d.r < a.nrow := hd.2
  by_cases h : s.r = d.r
  · unfold Board.moves_between_hvh
    rw [if_pos h, if_pos h]
  · have e1 : a.f_min_h s = a2.f_min_h s := Board.f_min_h_congr hocc hs
    have e2 : a.f_min_h d = a2.f_min_h d := Board.f_min_h_congr hocc hd
    have e3 : a.f_max_h s = a2.f_max_h s := Board.f_max_h_congr hnc hocc hs
    have e4 : a.f_max_h d = a2.f_max_h d := Board.f_max_h_congr hnc hocc hd
    simp only [Board.moves_between_hvh, if_neg h, ← e1, ← e2, ← e3, ← e4]
    rw [List.filter_congr (fun c hc => ?_)]
    rw [List.mem_range'_1] at hc
    have hclt : c < a.ncol := by
      have h1 := a.f_max_h_le s
      omega
    rw [Bool.eq_iff_iff, List.all_eq_true, List.all_eq_true]
    have hrin : ∀ r, s.r ⊓ d.r + 1 ≤ r → r < s.r ⊓ d.r + 1 + (s.r ⊔ d.r - 1 + 1 - (s.r ⊓ d.r + 1)) →
        a.SqIn ⟨c, r⟩ := by
      intro r h1 h2
      have hrr : r < a.nrow := by
        have hmax : s.r ⊔ d.r ≤ a.nrow - 1 := by
          rcases Nat.le_total s.r d.r with hh | hh
          · rw [Nat.max_eq_right hh]; omega
          · rw [Nat.max_eq_left hh]; omega
        omega
      exact ⟨hclt, hrr⟩
    constructor
    · intro hall r hrmem
      have hm := hrmem
      rw [List.mem_range'_1] at hm
      rw [← Board.is_empty_congr_at hocc (hrin r hm.1 hm.2)]
      exact hall r hrmem
    · intro hall r hrmem
      have hm := hrmem
      rw [List.mem_range'_1] at hm
      rw [Board.is_empty_congr_at hocc (hrin r hm.1 hm.2)]
      exact hall r hrmem

theorem Board.moves_between_congr {a a2 : Board} (hnc : a.ncol = a2.ncol)
    (hnr : a.nrow = a2.nrow)
    (hocc : ∀ sq, a.SqIn sq → (a.get sq).is_tile = (a2.get sq).is_tile)
    {s d : Square} (hs : a.SqIn s) (hd : a.SqIn d)
    (hvs : a2.get s = a.get s) (hvd : a2.get d = a.get d) :
    a.moves_between s d = a2.moves_between s d := by
  unfold Board.moves_between
  rw [hvs, hvd]
  by_cases h : s = d ∨ (a.get s).is_same_tile (a.get d) = false
  · rw [if_pos h, if_pos h]
  · rw [if_neg h, if_neg h,
      Board.moves_between_vhv_congr hnc hnr hocc hs hd,
      Board.moves_between_hvh_congr hnc hnr hocc hs hd]

/-! ### Properties of the reduction relation `RandomPlay` -/

theorem Board.ncol_do_move (b : Board) (mv : Move) : (b.do_move mv).ncol = b.ncol := rfl

theorem Board.nrow_do_move (b : Board) (mv : Move) : (b.do_move mv).nrow = b.nrow := rfl

theorem Board.length_do_move (b : Board) (mv : Move) :
    (b.do_move mv).cells.length = b.cells.length := by
  unfold Board.do_move
  rw [Board.length_cells_set, Board.length_cells_set]

theorem Board.wf_do_move {b : Board} (mv : Move) (h : b.Wf) : (b.do_move mv).Wf := by
  unfold Board.Wf at *
  rw [Board.length_do_move, Board.ncol_do_move, Board.nrow_do_move]
  exact h

theorem Board.do_move_get (b : Board) (mv : Move) (sq : Square) (hw : b.Wf)
    (hs : b.SqIn mv.src) (hd : b.SqIn mv.dst) :
    (b.do_move mv).get sq =
      if b.sq2idx sq = b.sq2idx mv.src ∨ b.sq2idx sq = b.sq2idx mv.dst then .Empty
      else b.get sq := by
  unfold Board.do_move
  by_cases h1 : b.sq2idx sq = b.sq2idx mv.dst
  · rw [if_pos (Or.inr h1)]
    rw [Board.get_eq_of_idx_eq ((b.set mv.src .Empty).set mv.dst .Empty)
      (show ((b.set mv.src .Empty).set mv.dst .Empty).sq2idx sq =
        ((b.set mv.src .Empty).set mv.dst .Empty).sq2idx mv.dst from h1)]
    apply Board.get_set_self
    rw [Board.length_cells_set]
    exact b.sq2idx_lt mv.dst hd hw
  · rw [Board.get_set_ne (b.set mv.src .Empty) mv.dst sq .Empty (fun he => h1 he.symm)]
    by_cases h2 : b.sq2idx sq = b.sq2idx mv.src
    · rw [if_pos (Or.inl h2)]
      rw [Board.get_eq_of_idx_eq (b.set mv.src .Empty)
        (show (b.set mv.src .Empty).sq2idx sq = (b.set mv.src .Empty).sq2idx mv.src from h2)]
      exact Board.get_set_self b mv.src .Empty (b.sq2idx_lt mv.src hs hw)
    · rw [if_neg (by tauto)]
      exact Board.get_set_ne b mv.src sq .Empty (fun he => h2 he.symm)

theorem mem_pairs2 {l : List Square} {s d : Square} (h : (s, d) ∈ Board.pairs2 l) :
    s ∈ l ∧ d ∈ l := by
  induction l with
  | nil => simp [Board.pairs2] at h
  | cons x xs ih =>
    unfold Board.pairs2 at h
    rw [List.mem_append] at h
    rcases h with h | h
    · rw [List.mem_map] at h
      obtain ⟨y, hy, he⟩ := h
      injection he with he1 he2
      rw [← he1, ← he2]
      exact ⟨List.mem_cons_self x xs, List.mem_cons_of_mem x hy⟩
    · obtain ⟨h1, h2⟩ := ih h
      exact ⟨List.mem_cons_of_mem x h1, List.mem_cons_of_mem x h2⟩

theorem RandomPlay.dims {a b : Board} (h : RandomPlay a b) :
    a.ncol = b.ncol ∧ a.nrow = b.nrow ∧ a.cells.length = b.cells.length := by
  induction h with
  | refl => exact ⟨rfl, rfl, rfl⟩
  | step s d mv h1 h2 h3 ih =>
    obtain ⟨e1, e2, e3⟩ := ih
    refine ⟨?_, ?_, ?_⟩
    · rw [← e1]; rfl
    · rw [← e2]; rfl
    · rw [← e3, Board.length_do_move]

theorem RandomPlay.wf {a b : Board} (h : RandomPlay a b) (hw : a.Wf) : b.Wf := by
  obtain ⟨e1, e2, e3⟩ := RandomPlay.dims h
  unfold Board.Wf at *
  rw [← e1, ← e2, ← e3]
  exact hw

theorem RandomPlay.trans {a b c : Board} (h1 : RandomPlay a b) (h2 : RandomPlay b c) :
    RandomPlay a c := by
  induction h1 with
  | refl => exact h2
  | step s d mv hp hf hrec ih => exact RandomPlay.step s d mv hp hf (ih h2)

theorem Board.do_move_not_tile {b : Board} {mv : Move} {sq : Square}
    (ht : (b.get sq).is_tile = false) : ((b.do_move mv).get sq).is_tile = false := by
  unfold Board.do_move
  rcases Board.get_set_cases (b.set mv.src .Empty) mv.dst sq .Empty with hc1 | hc1
  · rw [hc1]; rfl
  · rw [hc1]
    rcases Board.get_set_cases b mv.src sq .Empty with hc2 | hc2
    · rw [hc2]; rfl
    · rw [hc2]; exact ht

theorem RandomPlay.mono_not_tile {a b : Board} (h : RandomPlay a b) {sq : Square}
    (ht : (a.get sq).is_tile = false) : (b.get sq).is_tile = false := by
  induction h generalizing sq with
  | refl => exact ht
  | step s d mv h1 h2 h3 ih => exact ih (Board.do_move_not_tile ht)

/-- Replaying a reduction on a board with the same occupancy and the same
cells at every square the reduction ever removes: the same moves stay legal
and reach the corresponding reduced board. -/
theorem RandomPlay.replay {a b : Board} (h : RandomPlay a b) :
    ∀ a2 : Board, a.Wf → a2.Wf → a.ncol = a2.ncol → a.nrow = a2.nrow →
    (∀ sq, a.SqIn sq → (a.get sq).is_tile = (a2.get sq).is_tile) →
    (∀ sq, a.SqIn sq → (b.get sq).is_tile = false → a2.get sq = a.get sq) →
    ∃ b2 : Board, RandomPlay a2 b2 ∧
      ∀ sq, a.SqIn sq → b2.get sq =
        if (b.get sq).is_tile then a2.get sq else .Empty := by
  induction h with
  | refl b0 =>
    intro a2 hw hw2 hnc hnr hocc hagree
    refine ⟨a2, RandomPlay.refl a2, fun sq hin => ?_⟩
    by_cases ht : (b0.get sq).is_tile = true
    · rw [if_pos ht]
    · rw [if_neg ht]
      apply BoardCell.empty_of_is_tile_false
      rw [← hocc sq hin]
      simpa using ht
  | step s d mv hpair hfmb hrec ih =>
    rename_i x c
    intro a2 hw hw2 hnc hnr hocc hagree
    have hmem : mv ∈ x.moves_between s d := Board.mem_of_find_move_between hfmb
    obtain ⟨hsrc, hdst⟩ := Board.src_dst_of_mem_moves_between hmem
    obtain ⟨hsl, hdl⟩ := mem_pairs2 hpair
    have hsin : x.SqIn s := Board.sqIn_of_mem_inner hsl
    have hdin : x.SqIn d := Board.sqIn_of_mem_inner hdl
    have hsrc_in : x.SqIn mv.src := by rw [hsrc]; exact hsin
    have hdst_in : x.SqIn mv.dst := by rw [hdst]; exact hdin
    have hget_x : ∀ sq, (x.do_move mv).get sq =
        if x.sq2idx sq = x.sq2idx mv.src ∨ x.sq2idx sq = x.sq2idx mv.dst then .Empty
        else x.get sq := fun sq => Board.do_move_get x mv sq hw hsrc_in hdst_in
    have hx_s : ((x.do_move mv).get s).is_tile = false := by
      rw [hget_x s, if_pos (Or.inl (by rw [hsrc]))]
      rfl
    have hx_d : ((x.do_move mv).get d).is_tile = false := by
      rw [hget_x d, if_pos (Or.inr (by rw [hdst]))]
      rfl
    have hc_s : (c.get s).is_tile = false := RandomPlay.mono_not_tile hrec hx_s
    have hc_d : (c.get d).is_tile = false := RandomPlay.mono_not_tile hrec hx_d
    have hvs : a2.get s = x.get s := hagree s hsin hc_s
    have hvd : a2.get d = x.get d := hagree d hdin hc_d
    have hcong : x.moves_between s d = a2.moves_between s d :=
      Board.moves_between_congr hnc hnr hocc hsin hdin hvs hvd
    have hfmb2 : a2.find_move_between s d = some mv := by
      unfold Board.find_move_between at *
      rw [← hcong]
      exact hfmb
    have hpair2 : (s, d) ∈ Board.pairs2 a2.squares_inner := by
      rw [← Board.squares_inner_eq_of_dims hnc hnr]
      exact hpair
    have hw' : (x.do_move mv).Wf := Board.wf_do_move mv hw
    have hw2' : (a2.do_move mv).Wf := Board.wf_do_move mv hw2
    have hsrc_in2 : a2.SqIn mv.src := by
      unfold Board.SqIn at *
      rw [← hnc, ← hnr]
      exact hsrc_in
    have hdst_in2 : a2.SqIn mv.dst := by
      unfold Board.SqIn at *
      rw [← hnc, ← hnr]
      exact hdst_in
    have hget_a2 : ∀ sq, (a2.do_move mv).get sq =
        if a2.sq2idx sq = a2.sq2idx mv.src ∨ a2.sq2idx sq = a2.sq2idx mv.dst then .Empty
        else a2.get sq := fun sq => Board.do_move_get a2 mv sq hw2 hsrc_in2 hdst_in2
    have hidx_eq : ∀ sq sq' : Square,
        x.sq2idx sq = x.sq2idx sq' ↔ a2.sq2idx sq = a2.sq2idx sq' := by
      intro sq sq'
      unfold Board.sq2idx Board.cr2idx
      rw [hnc]
    have hocc' : ∀ sq, (x.do_move mv).SqIn sq →
        ((x.do_move mv).get sq).is_tile = ((a2.do_move mv).get sq).is_tile := by
      intro sq hin
      have hin0 : x.SqIn sq := hin
      rw [hget_x sq, hget_a2 sq]
      by_cases hcase : x.sq2idx sq = x.sq2idx mv.src ∨ x.sq2idx sq = x.sq2idx mv.dst
      · rw [if_pos hcase,
          if_pos (Or.imp (fun hh => (hidx_eq _ _).mp hh) (fun hh => (hidx_eq _ _).mp hh) hcase)]
      · rw [if_neg hcase, if_neg (fun hh => hcase
          (Or.imp (fun h2 => (hidx_eq _ _).mpr h2) (fun h2 => (hidx_eq _ _).mpr h2) hh))]
        exact hocc sq hin0
    have hagree' : ∀ sq, (x.do_move mv).SqIn sq → (c.get sq).is_tile = false →
        (a2.do_move mv).get sq = (x.do_move mv).get sq := by
      intro sq hin hct
      have hin0 : x.SqIn sq := hin
      rw [hget_x sq, hget_a2 sq]
      by_cases hcase : x.sq2idx sq = x.sq2idx mv.src ∨ x.sq2idx sq = x.sq2idx mv.dst
      · rw [if_pos hcase,
          if_pos (Or.imp (fun hh => (hidx_eq _ _).mp hh) (fun hh => (hidx_eq _ _).mp hh) hcase)]
      · rw [if_neg hcase, if_neg (fun hh => hcase
          (Or.imp (fun h2 => (hidx_eq _ _).mpr h2) (fun h2 => (hidx_eq _ _).mpr h2) hh))]
        exact hagree sq hin0 hct
    obtain ⟨b2, hplay, hvals⟩ := ih (a2.do_move mv) hw' hw2' hnc hnr hocc' hagree'
    refine ⟨b2, RandomPlay.step s d mv hpair2 hfmb2 hplay, fun sq hin => ?_⟩
    have hin' : (x.do_move mv).SqIn sq := hin
    rw [hvals sq hin']
    have hncolc : x.ncol = c.ncol := (RandomPlay.dims hrec).1
    have hidx_c : ∀ sq1 sq2 : Square,
        x.sq2idx sq1 = x.sq2idx sq2 → c.sq2idx sq1 = c.sq2idx sq2 := by
      intro sq1 sq2 he
      unfold Board.sq2idx Board.cr2idx at *
      rw [← hncolc]
      exact he
    by_cases hct : (c.get sq).is_tile = true
    · rw [if_pos hct, if_pos hct]
      have hcase : ¬(x.sq2idx sq = x.sq2idx mv.src ∨ x.sq2idx sq = x.sq2idx mv.dst) := by
        rintro (hcase | hcase)
        · rw [hsrc] at hcase
          have he : c.get sq = c.get s := Board.get_eq_of_idx_eq c (hidx_c sq s hcase)
          rw [he, hc_s] at hct
          exact Bool.noConfusion hct
        · rw [hdst] at hcase
          have he : c.get sq = c.get d := Board.get_eq_of_idx_eq c (hidx_c sq d hcase)
          rw [he, hc_d] at hct
          exact Bool.noConfusion hct
      rw [hget_a2 sq, if_neg (fun hh => hcase
        (Or.imp (fun h2 => (hidx_eq _ _).mpr h2) (fun h2 => (hidx_eq _ _).mpr h2) hh))]
    · rw [if_neg hct, if_neg hct]

/-! ### Writing the shuffled tiles back: `assignTiles` and `writeback` -/

theorem Board.occupied_sublist_props {b : Board} {sq : Square} (h : sq ∈ b.occupied) :
    sq ∈ b.squares_inner ∧ (b.get sq).is_tile = true :=
  ⟨(List.mem_filter.mp h).1, (List.mem_filter.mp h).2⟩

theorem Board.occupied_nodup (b : Board) : b.occupied.Nodup :=
  (b.squares_inner_nodup).filter _

theorem Board.occupied_pairwise_idx (b b' : Board) (hnc : b.ncol = b'.ncol) :
    b.occupied.Pairwise (fun p q => b'.sq2idx p ≠ b'.sq2idx q) := by
  apply List.Pairwise.imp_of_mem ?_ (List.Pairwise.imp (fun h => h) (b.occupied_nodup))
  intro p q hp hq hne he
  apply hne
  have hpc : p.c < b'.ncol := by
    rw [← hnc]
    exact (Board.sqIn_of_mem_inner (b.occupied_sublist_props hp).1).1
  have hqc : q.c < b'.ncol := by
    rw [← hnc]
    exact (Board.sqIn_of_mem_inner (b.occupied_sublist_props hq).1).1
  exact b'.sq2idx_inj hpc hqc he

theorem pairwise_zip_left {α β : Type} {R : α → α → Prop} (l : List α) :
    ∀ ts : List β, l.Pairwise R → (l.zip ts).Pairwise (fun p q => R p.1 q.1) := by
  induction l with
  | nil => intro ts h; simp
  | cons a l ih =>
    intro ts h
    cases ts with
    | nil => simp
    | cons t ts =>
      rw [List.zip_cons_cons, List.pairwise_cons]
      rw [List.pairwise_cons] at h
      exact ⟨fun q hq => h.1 q.1 (List.of_mem_zip hq).1, ih ts h.2⟩

theorem Board.zip_pairwise_idx (b b' : Board) (hnc : b.ncol = b'.ncol)
    (ts : List BoardCell) :
    (b.occupied.zip ts).Pairwise (fun p q => b'.sq2idx p.1 ≠ b'.sq2idx q.1) :=
  pairwise_zip_left b.occupied ts (b.occupied_pairwise_idx b' hnc)

theorem count_map_eq_countP {α β : Type} [DecidableEq β] (f : α → β) (l : List α)
    (x : β) : (l.map f).count x = l.countP (fun a => f a == x) := by
  induction l with
  | nil => rfl
  | cons a t ih =>
    rw [List.map_cons, List.count_cons, List.countP_cons, ih]

theorem countP_split (l : List Square) (p q : Square → Bool) :
    l.countP p = (l.filter q).countP p + (l.filter (fun a => !q a)).countP p := by
  induction l with
  | nil => rfl
  | cons a t ih =>
    rw [List.countP_cons, List.filter_cons, List.filter_cons]
    cases hq : q a <;> cases hp : p a <;>
      simp [List.countP_cons, hp, hq, ih] <;> omega

theorem Board.assignTiles_get_not_tile {b : Board} {ts : List BoardCell} {sq : Square}
    (h : (b.get sq).is_tile = false) :
    (b.assignTiles ts).get sq = b.get sq := by
  apply Board.get_setMany_of_ne
  intro p hp he
  have hq := (b.occupied_sublist_props (List.of_mem_zip hp).1).2
  rw [Board.get_eq_of_idx_eq b he] at hq
  rw [h] at hq
  exact Bool.noConfusion hq

theorem Board.assignTiles_map_get {b : Board} {ts : List BoardCell} (hw : b.Wf)
    (hlen : b.occupied.length = ts.length) :
    b.occupied.map (b.assignTiles ts).get = ts := by
  apply List.ext_getElem
  · rw [List.length_map, hlen]
  · intro i h1 h2
    rw [List.length_map] at h1
    rw [List.getElem_map]
    have hz : (b.occupied.zip ts).get ⟨i, by rw [List.length_zip]; omega⟩ =
        (b.occupied.get ⟨i, h1⟩, ts.get ⟨i, h2⟩) := List.getElem_zip
    have hmem : (b.occupied.get ⟨i, h1⟩, ts.get ⟨i, h2⟩) ∈ b.occupied.zip ts := by
      rw [← hz]
      exact List.getElem_mem _
    apply Board.get_setMany_mem b _ _ _ hmem (b.zip_pairwise_idx b rfl ts)
    exact b.sq2idx_lt _
      (Board.sqIn_of_mem_inner (b.occupied_sublist_props (List.getElem_mem h1)).1) hw

theorem Board.assignTiles_occ {b : Board} {ts : List BoardCell} (hw : b.Wf)
    (hts : ∀ v ∈ ts, v.is_tile = true)
    (hlen : b.occupied.length = ts.length) :
    ∀ sq, b.SqIn sq → (b.get sq).is_tile = ((b.assignTiles ts).get sq).is_tile := by
  intro sq hin
  by_cases h : (b.get sq).is_tile = true
  · rw [h]
    by_cases hsqi : sq ∈ b.squares_inner
    · have hocc : sq ∈ b.occupied := List.mem_filter.mpr ⟨hsqi, h⟩
      obtain ⟨i, hi, hie⟩ := List.getElem_of_mem hocc
      have hi2 : i < ts.length := by omega
      have hie2 : b.occupied.get ⟨i, hi⟩ = sq := hie
      have hz : (b.occupied.zip ts).get ⟨i, by rw [List.length_zip]; omega⟩ =
          (b.occupied.get ⟨i, hi⟩, ts.get ⟨i, hi2⟩) := List.getElem_zip
      have hmem : (sq, ts.get ⟨i, hi2⟩) ∈ b.occupied.zip ts := by
        rw [← hie2, ← hz]
        exact List.getElem_mem _
      have hval : (b.assignTiles ts).get sq = ts.get ⟨i, hi2⟩ :=
        Board.get_setMany_mem b _ _ _ hmem (b.zip_pairwise_idx b rfl ts)
          (b.sq2idx_lt _ hin hw)
      rw [hval, hts (ts.get ⟨i, hi2⟩) (List.getElem_mem hi2)]
    · have huntouched : (b.assignTiles ts).get sq = b.get sq := by
        apply Board.get_setMany_of_ne
        intro p hp he
        have hp1 := (b.occupied_sublist_props (List.of_mem_zip hp).1).1
        have hpe : p.1 = sq :=
          b.sq2idx_inj (Board.sqIn_of_mem_inner hp1).1 hin.1 he
        rw [hpe] at hp1
        exact hsqi hp1
      rw [huntouched, h]
  · have h' : (b.get sq).is_tile = false := by simpa using h
    rw [Board.assignTiles_get_not_tile h']

theorem Board.writeback_get_occupied {self w : Board} (hw : self.Wf)
    (hnc : w.ncol = self.ncol) (hnr : w.nrow = self.nrow)
    {sq : Square} (hmem : sq ∈ w.occupied) :
    (self.writeback w).get sq = w.get sq := by
  apply Board.get_setMany_mem self _ _ _ ?_ ?_ ?_
  · unfold Board.enumerate_tiles
    rw [List.mem_map]
    exact ⟨sq, hmem, rfl⟩
  · unfold Board.enumerate_tiles
    rw [List.pairwise_map]
    exact w.occupied_pairwise_idx self hnc
  · have hin : self.SqIn sq := by
      have h0 := Board.sqIn_of_mem_inner (w.occupied_sublist_props hmem).1
      unfold Board.SqIn at *
      rw [← hnc, ← hnr]
      exact h0
    exact self.sq2idx_lt sq hin hw

theorem Board.writeback_get_not_tile {self w : Board} (hnc : w.ncol = self.ncol)
    {sq : Square} (h : (w.get sq).is_tile = false) :
    (self.writeback w).get sq = self.get sq := by
  apply Board.get_setMany_of_ne
  intro p hp he
  unfold Board.enumerate_tiles at hp
  rw [List.mem_map] at hp
  obtain ⟨q, hq, rfl⟩ := hp
  have hqt := (w.occupied_sublist_props hq).2
  have he' : w.sq2idx q = w.sq2idx sq := by
    unfold Board.sq2idx Board.cr2idx at *
    rw [hnc]
    exact he
  rw [Board.get_eq_of_idx_eq w he'] at hqt
  rw [h] at hqt
  exact Bool.noConfusion hqt

theorem Board.do_move_values (b : Board) (mv : Move) (sq : Square) :
    (b.do_move mv).get sq = b.get sq ∨ (b.do_move mv).get sq = .Empty := by
  unfold Board.do_move
  rcases Board.get_set_cases (b.set mv.src .Empty) mv.dst sq .Empty with hc | hc
  · exact Or.inr hc
  · rcases Board.get_set_cases b mv.src sq .Empty with hc2 | hc2
    · rw [hc, hc2]
      exact Or.inr rfl
    · rw [hc, hc2]
      exact Or.inl rfl

theorem RandomPlay.values {a b : Board} (h : RandomPlay a b) (sq : Square) :
    b.get sq = a.get sq ∨ b.get sq = .Empty := by
  induction h with
  | refl => exact Or.inl rfl
  | step s d mv h1 h2 h3 ih =>
    rcases ih with he | he
    · rcases Board.do_move_values _ mv sq with h4 | h4
      · exact Or.inl (he.trans h4)
      · exact Or.inr (he.trans h4)
    · exact Or.inr he

theorem Board.iter_tiles_eq_map (b : Board) : b.iter_tiles = b.occupied.map b.get := by
  unfold Board.iter_tiles Board.enumerate_tiles
  rw [List.map_map]
  rfl

theorem Board.assignTiles_count {b : Board} {ts : List BoardCell} (hw : b.Wf)
    (hperm : ts.Perm b.iter_tiles) :
    ∀ x, (b.assignTiles ts).innerCells.count x = b.innerCells.count x := by
  intro x
  have hlen : b.occupied.length = ts.length := by
    have h0 := hperm.length_eq
    rw [Board.iter_tiles_eq_map, List.length_map] at h0
    omega
  unfold Board.innerCells
  have hinner : (b.assignTiles ts).squares_inner = b.squares_inner :=
    Board.squares_inner_eq_of_dims (Board.ncol_setMany b _) (Board.nrow_setMany b _)
  rw [hinner, count_map_eq_countP, count_map_eq_countP,
    countP_split b.squares_inner _ (fun sq => (b.get sq).is_tile),
    countP_split b.squares_inner (fun sq => b.get sq == x) (fun sq => (b.get sq).is_tile)]
  have h1 : b.squares_inner.filter (fun sq => (b.get sq).is_tile) = b.occupied := rfl
  rw [h1]
  have hfirst : b.occupied.countP (fun sq => (b.assignTiles ts).get sq == x) =
      b.occupied.countP (fun sq => b.get sq == x) := by
    rw [← count_map_eq_countP ((b.assignTiles ts).get) b.occupied x,
      ← count_map_eq_countP b.get b.occupied x,
      Board.assignTiles_map_get hw hlen, ← Board.iter_tiles_eq_map]
    exact hperm.count_eq x
  have hsecond : (b.squares_inner.filter (fun sq => !(b.get sq).is_tile)).countP
      (fun sq => (b.assignTiles ts).get sq == x) =
      (b.squares_inner.filter (fun sq => !(b.get sq).is_tile)).countP
      (fun sq => b.get sq == x) := by
    apply List.countP_congr
    intro sq hsq
    have hnt : (b.get sq).is_tile = false := by
      simpa using (List.mem_filter.mp hsq).2
    rw [Board.assignTiles_get_not_tile hnt]
  rw [hfirst, hsecond]

theorem Board.writeback_count_split {self w2 : Board} (hw : self.Wf)
    (hnc : w2.ncol = self.ncol) (hnr : w2.nrow = self.nrow) (x : BoardCell) :
    (self.writeback w2).innerCells.count x =
      w2.iter_tiles.count x +
      (self.squares_inner.filter (fun sq => !(w2.get sq).is_tile)).countP
        (fun sq => self.get sq == x) := by
  unfold Board.innerCells
  have hinner1 : (self.writeback w2).squares_inner = self.squares_inner :=
    Board.squares_inner_eq_of_dims (Board.ncol_setMany self _) (Board.nrow_setMany self _)
  rw [hinner1, count_map_eq_countP,
    countP_split self.squares_inner _ (fun sq => (w2.get sq).is_tile)]
  congr 1
  · have hinner : self.squares_inner = w2.squares_inner :=
      (Board.squares_inner_eq_of_dims hnc hnr).symm
    rw [hinner]
    have h1 : w2.squares_inner.filter (fun sq => (w2.get sq).is_tile) = w2.occupied := rfl
    rw [h1]
    rw [← count_map_eq_countP ((self.writeback w2).get) w2.occupied x]
    have hmapeq : w2.occupied.map (self.writeback w2).get = w2.occupied.map w2.get := by
      apply List.map_congr_left
      intro sq hsq
      exact Board.writeback_get_occupied hw hnc hnr hsq
    rw [hmapeq, ← Board.iter_tiles_eq_map]
  · apply List.countP_congr
    intro sq hsq
    have hnt : (w2.get sq).is_tile = false := by
      simpa using (List.mem_filter.mp hsq).2
    rw [Board.writeback_get_not_tile hnc hnt]

theorem Board.innerCells_count_split (self w2 : Board) (x : BoardCell) :
    self.innerCells.count x =
      (self.squares_inner.filter (fun sq => (w2.get sq).is_tile)).countP
        (fun sq => self.get sq == x) +
      (self.squares_inner.filter (fun sq => !(w2.get sq).is_tile)).countP
        (fun sq => self.get sq == x) := by
  unfold Board.innerCells
  rw [count_map_eq_countP, countP_split _ _ (fun sq => (w2.get sq).is_tile)]

theorem Board.sqIn_congr {a b : Board} (hc : a.ncol = b.ncol) (hr : a.nrow = b.nrow)
    (sq : Square) : a.SqIn sq ↔ b.SqIn sq := by
  unfold Board.SqIn
  rw [hc, hr]

theorem RandomPlay.tile_of_tile {a b : Board} (h : RandomPlay a b) {sq : Square}
    (ht : (b.get sq).is_tile = true) : (a.get sq).is_tile = true := by
  by_contra hc
  have h1 : (a.get sq).is_tile = false := by simpa using hc
  have h2 := RandomPlay.mono_not_tile h h1
  rw [ht] at h2
  exact Bool.noConfusion h2

theorem Board.perm_tiles_props {b : Board} {ts : List BoardCell}
    (hperm : ts.Perm b.iter_tiles) :
    (∀ v ∈ ts, v.is_tile = true) ∧ b.occupied.length = ts.length := by
  constructor
  · intro v hv
    have hv2 : v ∈ b.iter_tiles := hperm.mem_iff.mp hv
    rw [Board.iter_tiles_eq_map, List.mem_map] at hv2
    obtain ⟨sq, hsq, rfl⟩ := hv2
    exact (b.occupied_sublist_props hsq).2
  · have h0 := hperm.length_eq
    rw [Board.iter_tiles_eq_map, List.length_map] at h0
    omega

theorem Board.is_empty_of_forall {b : Board}
    (h : ∀ sq ∈ b.squares_inner, (b.get sq).is_tile = false) : b.is_empty = true := by
  unfold Board.is_empty
  rw [List.all_eq_true]
  intro sq hsq
  rw [BoardCell.empty_of_is_tile_false (h sq hsq)]
  rfl

/-- Master induction over the `shuffle_solvable` loop: starting from a
well-formed pair of boards with empty borders where `self` carries `work`'s
tile at every `work`-occupied square, the loop preserves dimensions,
well-formedness, the multiset of interior cells and the occupancy pattern of
`self`, keeps `self`'s cells at squares `work` has already cleared, and any
board matching `work`'s occupancy that carries `final`'s cells at the
`work`-occupied squares can be cleared by legal moves. -/
theorem Gen.master {self work final : Board} (hgen : Gen self work final) :
    self.Wf → work.Wf → work.ncol = self.ncol → work.nrow = self.nrow →
    (∀ sq, sq ∈ work.squares_inner → (work.get sq).is_tile = true →
      self.get sq = work.get sq) →
    (∀ sq, self.SqIn sq → sq ∉ self.squares_inner → self.get sq = .Empty) →
    (∀ sq, work.SqIn sq → sq ∉ work.squares_inner → work.get sq = .Empty) →
    final.ncol = self.ncol ∧ final.nrow = self.nrow ∧ final.Wf ∧
    (∀ x, final.innerCells.count x = self.innerCells.count x) ∧
    (∀ sq, self.SqIn sq → (final.get sq).is_tile = (self.get sq).is_tile) ∧
    (∀ sq, self.SqIn sq → (work.get sq).is_tile = false →
      final.get sq = self.get sq) ∧
    (∀ f : Board, f.Wf → f.ncol = self.ncol → f.nrow = self.nrow →
      (∀ sq, self.SqIn sq → (f.get sq).is_tile = (work.get sq).is_tile) →
      (∀ sq, self.SqIn sq → (work.get sq).is_tile = true →
        f.get sq = final.get sq) →
      Clearable f) := by
  induction hgen with
  | done self work hemp =>
    intro hwsf hww hnc hnr hJ hBs hBw
    refine ⟨rfl, rfl, hwsf, fun x => rfl, fun sq hin => rfl, fun sq hin h => rfl, ?_⟩
    intro f hfw hfc hfr hfocc hfval
    refine ⟨f, RandomPlay.refl f, ?_⟩
    apply Board.is_empty_of_forall
    intro sq hsq
    have h1 : sq ∈ self.squares_inner := by
      rw [← Board.squares_inner_eq_of_dims hfc hfr]
      exact hsq
    have hinS : self.SqIn sq := Board.sqIn_of_mem_inner h1
    have hW : sq ∈ work.squares_inner := by
      rw [Board.squares_inner_eq_of_dims hnc hnr]
      exact h1
    have hwe : (work.get sq).is_tile = false := by
      unfold Board.is_empty at hemp
      rw [List.all_eq_true] at hemp
      have h2 := hemp sq hW
      cases hcell : work.get sq with
      | Empty => rfl
      | Tile k =>
        rw [hcell] at h2
        exact Bool.noConfusion h2
    rw [hfocc sq hinS]
    exact hwe
  | step ts work3 hne hperm hplay hstuck hrec ih =>
    rename_i self work final
    intro hwsf hww hnc hnr hJ hBs hBw
    obtain ⟨hts, hlen⟩ := Board.perm_tiles_props hperm
    have hw2c : (work.assignTiles ts).ncol = work.ncol := Board.ncol_setMany work _
    have hw2r : (work.assignTiles ts).nrow = work.nrow := Board.nrow_setMany work _
    have hs2c : (self.writeback (work.assignTiles ts)).ncol = self.ncol :=
      Board.ncol_setMany self _
    have hs2r : (self.writeback (work.assignTiles ts)).nrow = self.nrow :=
      Board.nrow_setMany self _
    obtain ⟨hd1, hd2, hd3⟩ := RandomPlay.dims hplay
    have hw2w : (work.assignTiles ts).Wf := Board.wf_setMany _ hww
    have hw3w : work3.Wf := RandomPlay.wf hplay hw2w
    have hs2w : (self.writeback (work.assignTiles ts)).Wf := Board.wf_setMany _ hwsf
    have hw2sc : (work.assignTiles ts).ncol = self.ncol := by rw [hw2c]; exact hnc
    have hw2sr : (work.assignTiles ts).nrow = self.nrow := by rw [hw2r]; exact hnr
    have hnc3 : work3.ncol = (self.writeback (work.assignTiles ts)).ncol := by
      rw [hs2c, ← hd1, hw2c]
      exact hnc
    have hnr3 : work3.nrow = (self.writeback (work.assignTiles ts)).nrow := by
      rw [hs2r, ← hd2, hw2r]
      exact hnr
    have hwc3 : work.ncol = work3.ncol := by rw [← hd1, hw2c]
    have hwr3 : work.nrow = work3.nrow := by rw [← hd2, hw2r]
    have hinM : work.squares_inner = self.squares_inner :=
      Board.squares_inner_eq_of_dims hnc hnr
    have hinW2 : (work.assignTiles ts).squares_inner = work.squares_inner :=
      Board.squares_inner_eq_of_dims hw2c hw2r
    have hinS2 : (self.writeback (work.assignTiles ts)).squares_inner =
        self.squares_inner := Board.squares_inner_eq_of_dims hs2c hs2r
    have hinW3 : work3.squares_inner = (work.assignTiles ts).squares_inner :=
      Board.squares_inner_eq_of_dims hd1.symm hd2.symm
    have hocc : ∀ sq, work.SqIn sq →
        (work.get sq).is_tile = ((work.assignTiles ts).get sq).is_tile :=
      Board.assignTiles_occ hww hts hlen
    have hBw2 : ∀ sq, work.SqIn sq → sq ∉ work.squares_inner →
        (work.assignTiles ts).get sq = .Empty := by
      intro sq h1 h2
      have h3 : (work.get sq).is_tile = false := by rw [hBw sq h1 h2]; rfl
      rw [Board.assignTiles_get_not_tile h3]
      exact hBw sq h1 h2
    have hBw3 : ∀ sq, work3.SqIn sq → sq ∉ work3.squares_inner →
        work3.get sq = .Empty := by
      intro sq h1 h2
      rcases RandomPlay.values hplay sq with hv | hv
      · rw [hv]
        apply hBw2 sq ((Board.sqIn_congr hwc3 hwr3 sq).mpr h1)
        rw [← hinW2, ← hinW3]
        exact h2
      · exact hv
    have hBs2 : ∀ sq, (self.writeback (work.assignTiles ts)).SqIn sq →
        sq ∉ (self.writeback (work.assignTiles ts)).squares_inner →
        (self.writeback (work.assignTiles ts)).get sq = .Empty := by
      intro sq h1 h2
      have h1' : self.SqIn sq := (Board.sqIn_congr hs2c hs2r sq).mp h1
      have h2' : sq ∉ self.squares_inner := by rw [← hinS2]; exact h2
      have hwIn : work.SqIn sq := (Board.sqIn_congr hnc hnr sq).mpr h1'
      have hwNi : sq ∉ work.squares_inner := by rw [hinM]; exact h2'
      have h3 : ((work.assignTiles ts).get sq).is_tile = false := by
        rw [hBw2 sq hwIn hwNi]
        rfl
      rw [Board.writeback_get_not_tile hw2sc h3]
      exact hBs sq h1' h2'
    have hJ2 : ∀ sq, sq ∈ work3.squares_inner → (work3.get sq).is_tile = true →
        (self.writeback (work.assignTiles ts)).get sq = work3.get sq := by
      intro sq hmem ht
      have hvw2 : work3.get sq = (work.assignTiles ts).get sq := by
        rcases RandomPlay.values hplay sq with hv | hv
        · exact hv
        · rw [hv] at ht
          exact Bool.noConfusion ht
      have hw2t : ((work.assignTiles ts).get sq).is_tile = true := by
        rw [← hvw2]
        exact ht
      have hoccm : sq ∈ (work.assignTiles ts).occupied :=
        List.mem_filter.mpr ⟨hinW3 ▸ hmem, hw2t⟩
      rw [hvw2]
      exact Board.writeback_get_occupied hwsf hw2sc hw2sr hoccm
    have hocclist : (work.assignTiles ts).occupied = work.occupied := by
      unfold Board.occupied
      rw [hinW2]
      apply List.filter_congr
      intro sq hsq
      exact (hocc sq (Board.sqIn_of_mem_inner hsq)).symm
    have hitw2 : (work.assignTiles ts).iter_tiles = ts := by
      rw [Board.iter_tiles_eq_map, hocclist, Board.assignTiles_map_get hww hlen]
    obtain ⟨ifc, ifr, ifw, icount, iocc, ival, iuniv⟩ :=
      ih hs2w hw3w hnc3 hnr3 hJ2 hBs2 hBw3
    refine ⟨by rw [ifc, hs2c], by rw [ifr, hs2r], ifw, ?_, ?_, ?_, ?_⟩
    · intro x
      rw [icount x, Board.writeback_count_split hwsf hw2sc hw2sr x,
        Board.innerCells_count_split self (work.assignTiles ts) x]
      have hfilt : self.squares_inner.filter
          (fun sq => ((work.assignTiles ts).get sq).is_tile) = work.occupied := by
        unfold Board.occupied
        rw [← hinM]
        apply List.filter_congr
        intro sq hsq
        exact (hocc sq (Board.sqIn_of_mem_inner hsq)).symm
      have hc1 : (work.assignTiles ts).iter_tiles.count x =
          (self.squares_inner.filter
            (fun sq => ((work.assignTiles ts).get sq).is_tile)).countP
            (fun sq => self.get sq == x) := by
        rw [hitw2, hperm.count_eq x, Board.iter_tiles_eq_map, count_map_eq_countP,
          hfilt]
        apply List.countP_congr
        intro sq hsq
        have hp := work.occupied_sublist_props hsq
        rw [hJ sq hp.1 hp.2]
      rw [hc1]
    · intro sq hin
      have hin2 : (self.writeback (work.assignTiles ts)).SqIn sq :=
        (Board.sqIn_congr hs2c hs2r sq).mpr hin
      rw [iocc sq hin2]
      by_cases hw2t : ((work.assignTiles ts).get sq).is_tile = true
      · have hwIn : work.SqIn sq := (Board.sqIn_congr hnc hnr sq).mpr hin
        have hwt : (work.get sq).is_tile = true := by
          rw [hocc sq hwIn]
          exact hw2t
        have hmemI : sq ∈ work.squares_inner := by
          by_contra hni
          rw [hBw sq hwIn hni] at hwt
          exact Bool.noConfusion hwt
        have hoccm : sq ∈ (work.assignTiles ts).occupied :=
          List.mem_filter.mpr ⟨by rw [hinW2]; exact hmemI, hw2t⟩
        rw [Board.writeback_get_occupied hwsf hw2sc hw2sr hoccm, hw2t,
          hJ sq hmemI hwt, hwt]
      · have hw2f : ((work.assignTiles ts).get sq).is_tile = false := by
          simpa using hw2t
        rw [Board.writeback_get_not_tile hw2sc hw2f]
    · intro sq hin hwf
      have hin2 : (self.writeback (work.assignTiles ts)).SqIn sq :=
        (Board.sqIn_congr hs2c hs2r sq).mpr hin
      have hwIn : work.SqIn sq := (Board.sqIn_congr hnc hnr sq).mpr hin
      have hw2f : ((work.assignTiles ts).get sq).is_tile = false := by
        rw [← hocc sq hwIn]
        exact hwf
      have hw3f : (work3.get sq).is_tile = false :=
        RandomPlay.mono_not_tile hplay hw2f
      rw [ival sq hin2 hw3f, Board.writeback_get_not_tile hw2sc hw2f]
    · intro f hfw hfc hfr hfocc hfval
      have hoccf : ∀ sq, (work.assignTiles ts).SqIn sq →
          (((work.assignTiles ts)).get sq).is_tile = (f.get sq).is_tile := by
        intro sq hin
        have hinS : self.SqIn sq := (Board.sqIn_congr hw2sc hw2sr sq).mp hin
        have hwIn : work.SqIn sq := (Board.sqIn_congr hnc hnr sq).mpr hinS
        rw [← hocc sq hwIn, hfocc sq hinS]
      have hagrf : ∀ sq, (work.assignTiles ts).SqIn sq →
          (work3.get sq).is_tile = false →
          f.get sq = (work.assignTiles ts).get sq := by
        intro sq hin hw3f
        have hinS : self.SqIn sq := (Board.sqIn_congr hw2sc hw2sr sq).mp hin
        have hwIn : work.SqIn sq := (Board.sqIn_congr hnc hnr sq).mpr hinS
        by_cases hw2t : ((work.assignTiles ts).get sq).is_tile = true
        · have hwt : (work.get sq).is_tile = true := by
            rw [hocc sq hwIn]
            exact hw2t
          have hmemI : sq ∈ work.squares_inner := by
            by_contra hni
            rw [hBw sq hwIn hni] at hwt
            exact Bool.noConfusion hwt
          have hoccm : sq ∈ (work.assignTiles ts).occupied :=
            List.mem_filter.mpr ⟨by rw [hinW2]; exact hmemI, hw2t⟩
          have hin2 : (self.writeback (work.assignTiles ts)).SqIn sq :=
            (Board.sqIn_congr hs2c hs2r sq).mpr hinS
          rw [hfval sq hinS hwt, ival sq hin2 hw3f,
            Board.writeback_get_occupied hwsf hw2sc hw2sr hoccm]
        · have hw2f : ((work.assignTiles ts).get sq).is_tile = false := by
            simpa using hw2t
          have hff : (f.get sq).is_tile = false := by
            rw [hfocc sq hinS, hocc sq hwIn]
            exact hw2f
          rw [BoardCell.empty_of_is_tile_false hff,
            BoardCell.empty_of_is_tile_false hw2f]
      obtain ⟨f3, hpf3, hf3⟩ := RandomPlay.replay hplay f hw2w hfw
        (by rw [hw2sc, hfc]) (by rw [hw2sr, hfr]) hoccf hagrf
      have hf3w : f3.Wf := RandomPlay.wf hpf3 hfw
      obtain ⟨hfd1, hfd2, hfd3⟩ := RandomPlay.dims hpf3
      have hf3c : f3.ncol = (self.writeback (work.assignTiles ts)).ncol := by
        rw [← hfd1, hfc, hs2c]
      have hf3r : f3.nrow = (self.writeback (work.assignTiles ts)).nrow := by
        rw [← hfd2, hfr, hs2r]
      have ho2 : ∀ sq, (self.writeback (work.assignTiles ts)).SqIn sq →
          (f3.get sq).is_tile = (work3.get sq).is_tile := by
        intro sq hin
        have hinS : self.SqIn sq := (Board.sqIn_congr hs2c hs2r sq).mp hin
        have hinW2' : (work.assignTiles ts).SqIn sq :=
          (Board.sqIn_congr hw2sc hw2sr sq).mpr hinS
        rw [hf3 sq hinW2']
        by_cases h3 : (work3.get sq).is_tile = true
        · rw [if_pos h3, h3]
          have hw2t : ((work.assignTiles ts).get sq).is_tile = true :=
            RandomPlay.tile_of_tile hplay h3
          have hwt : (work.get sq).is_tile = true := by
            rw [hocc sq ((Board.sqIn_congr hnc hnr sq).mpr hinS)]
            exact hw2t
          rw [hfocc sq hinS]
          exact hwt
        · rw [if_neg h3]
          have h3' : (work3.get sq).is_tile = false := by simpa using h3
          exact h3'.symm
      have hv2 : ∀ sq, (self.writeback (work.assignTiles ts)).SqIn sq →
          (work3.get sq).is_tile = true → f3.get sq = final.get sq := by
        intro sq hin h3t
        have hinS : self.SqIn sq := (Board.sqIn_congr hs2c hs2r sq).mp hin
        have hinW2' : (work.assignTiles ts).SqIn sq :=
          (Board.sqIn_congr hw2sc hw2sr sq).mpr hinS
        rw [hf3 sq hinW2', if_pos h3t]
        have hw2t : ((work.assignTiles ts).get sq).is_tile = true :=
          RandomPlay.tile_of_tile hplay h3t
        have hwt : (work.get sq).is_tile = true := by
          rw [hocc sq ((Board.sqIn_congr hnc hnr sq).mpr hinS)]
          exact hw2t
        exact hfval sq hinS hwt
      obtain ⟨e, hpe, hee⟩ := iuniv f3 hf3w hf3c hf3r ho2 hv2
      exact ⟨e, RandomPlay.trans hpf3 hpe, hee⟩

theorem Board.initialRandom_def (ci ri : Nat) (σ : List Nat) :
    initialRandom ci ri σ = (base ci ri).setMany
      ((base ci ri).squares_inner.zip ((randomTiles (ci * ri) σ).map .Tile)) := rfl

theorem Board.base_wf (ci ri : Nat) : (base ci ri).Wf := by
  unfold Board.base Board.Wf
  simp

theorem Board.initialRandom_ncol (ci ri : Nat) (σ : List Nat) :
    (initialRandom ci ri σ).ncol = ci + 2 := by
  rw [Board.initialRandom_def]
  exact Board.ncol_setMany _ _

theorem Board.initialRandom_nrow (ci ri : Nat) (σ : List Nat) :
    (initialRandom ci ri σ).nrow = ri + 2 := by
  rw [Board.initialRandom_def]
  exact Board.nrow_setMany _ _

theorem Board.initialRandom_wf (ci ri : Nat) (σ : List Nat) :
    (initialRandom ci ri σ).Wf := by
  rw [Board.initialRandom_def]
  exact Board.wf_setMany _ (Board.base_wf ci ri)

theorem Board.inner_pairwise_idx (b : Board) :
    b.squares_inner.Pairwise (fun p q => b.sq2idx p ≠ b.sq2idx q) := by
  apply List.Pairwise.imp_of_mem ?_
    (List.Pairwise.imp (fun h => h) (b.squares_inner_nodup))
  intro p q hp hq hne he
  exact hne (b.sq2idx_inj (Board.sqIn_of_mem_inner hp).1
    (Board.sqIn_of_mem_inner hq).1 he)

theorem Board.setMany_inner_map_get {b : Board} {ts : List BoardCell} (hw : b.Wf)
    (hlen : b.squares_inner.length = ts.length) :
    b.squares_inner.map (b.setMany (b.squares_inner.zip ts)).get = ts := by
  apply List.ext_getElem
  · rw [List.length_map, hlen]
  · intro i h1 h2
    rw [List.length_map] at h1
    rw [List.getElem_map]
    have hz : (b.squares_inner.zip ts).get ⟨i, by rw [List.length_zip]; omega⟩ =
        (b.squares_inner.get ⟨i, h1⟩, ts.get ⟨i, h2⟩) := List.getElem_zip
    have hmem : (b.squares_inner.get ⟨i, h1⟩, ts.get ⟨i, h2⟩) ∈
        b.squares_inner.zip ts := by
      rw [← hz]
      exact List.getElem_mem _
    apply Board.get_setMany_mem b _ _ _ hmem
      (pairwise_zip_left _ ts b.inner_pairwise_idx)
    exact b.sq2idx_lt _ (Board.sqIn_of_mem_inner (List.getElem_mem h1)) hw

theorem Board.initialRandom_get_not_inner {ci ri : Nat} {σ : List Nat} {sq : Square}
    (hin : (initialRandom ci ri σ).SqIn sq)
    (hni : sq ∉ (initialRandom ci ri σ).squares_inner) :
    (initialRandom ci ri σ).get sq = .Empty := by
  have hc : (initialRandom ci ri σ).ncol = (base ci ri).ncol :=
    Board.initialRandom_ncol ci ri σ
  have hr : (initialRandom ci ri σ).nrow = (base ci ri).nrow :=
    Board.initialRandom_nrow ci ri σ
  have hin' : (base ci ri).SqIn sq := (Board.sqIn_congr hc hr sq).mp hin
  have hni' : sq ∉ (base ci ri).squares_inner := by
    intro hmem
    apply hni
    rw [Board.squares_inner_eq_of_dims hc hr]
    exact hmem
  rw [Board.initialRandom_def]
  have hne : ∀ p ∈ (base ci ri).squares_inner.zip
      ((randomTiles (ci * ri) σ).map BoardCell.Tile),
      (base ci ri).sq2idx p.1 ≠ (base ci ri).sq2idx sq := by
    intro p hp he
    have hp1 : p.1 ∈ (base ci ri).squares_inner := (List.of_mem_zip hp).1
    have hpe : p.1 = sq :=
      (base ci ri).sq2idx_inj (Board.sqIn_of_mem_inner hp1).1 hin'.1 he
    rw [hpe] at hp1
    exact hni' hp1
  rw [Board.get_setMany_of_ne _ _ _ hne]
  exact get_replicate_empty _ _ _ sq

/-! ### The shape of the interior square list -/

theorem range_filter_window (a b : Nat) :
    ∀ n, (List.range n).filter (fun x => decide (a ≤ x ∧ x < b)) =
      List.range' a (min b n - a) := by
  intro n
  induction n with
  | zero => simp
  | succ n ih =>
    rw [List.range_succ, List.filter_append, ih, List.filter_singleton]
    by_cases h : a ≤ n ∧ n < b
    · have hd : decide (a ≤ n ∧ n < b) = true := by simpa using h
      rw [hd, cond_true]
      have h1 : min b n = n := by omega
      have h2 : min b (n + 1) = n + 1 := by omega
      have h3 : n + 1 - a = (n - a) + 1 := by omega
      rw [h1, h2, h3, List.range'_1_concat]
      have h4 : a + (n - a) = n := by omega
      rw [h4]
    · have hd : decide (a ≤ n ∧ n < b) = false := decide_eq_false h
      rw [hd, cond_false, List.append_nil]
      have h5 : min b n - a = min b (n + 1) - a := by omega
      rw [h5]

theorem flatMap_range_window {α : Type} (g : Nat → List α) (a b : Nat) :
    ∀ n, (List.range n).flatMap (fun r => if a ≤ r ∧ r < b then g r else []) =
      (List.range' a (min b n - a)).flatMap g := by
  intro n
  induction n with
  | zero => simp
  | succ n ih =>
    rw [List.range_succ, List.flatMap_append, ih, List.flatMap_singleton]
    by_cases h : a ≤ n ∧ n < b
    · rw [if_pos h]
      have h1 : min b n = n := by omega
      have h2 : min b (n + 1) = n + 1 := by omega
      have h3 : n + 1 - a = (n - a) + 1 := by omega
      rw [h1, h2, h3, List.range'_1_concat, List.flatMap_append,
        List.flatMap_singleton]
      have h4 : a + (n - a) = n := by omega
      rw [h4]
    · rw [if_neg h, List.append_nil]
      have h5 : min b n - a = min b (n + 1) - a := by omega
      rw [h5]

theorem Board.squares_inner_explicit (b : Board) :
    b.squares_inner = (List.range' 1 (b.nrow - 2)).flatMap
      (fun r => (List.range' 1 (b.ncol - 2)).map (fun c => ⟨c, r⟩)) := by
  unfold Board.squares_inner Board.squares
  rw [List.filter_flatMap]
  have hrow : ∀ r : Nat, ((List.range b.ncol).map
        (fun c => (⟨c, r⟩ : Square))).filter
        (fun sq => decide (1 ≤ sq.c ∧ sq.c < b.ncol - 1 ∧
          1 ≤ sq.r ∧ sq.r < b.nrow - 1)) =
      if 1 ≤ r ∧ r < b.nrow - 1 then
        (List.range' 1 (b.ncol - 2)).map (fun c => (⟨c, r⟩ : Square))
      else [] := by
    intro r
    rw [List.filter_map]
    by_cases hr : 1 ≤ r ∧ r < b.nrow - 1
    · rw [if_pos hr]
      have hfe : (List.range b.ncol).filter
          ((fun sq => decide (1 ≤ sq.c ∧ sq.c < b.ncol - 1 ∧
            1 ≤ sq.r ∧ sq.r < b.nrow - 1)) ∘ (fun c => (⟨c, r⟩ : Square))) =
          (List.range b.ncol).filter (fun c => decide (1 ≤ c ∧ c < b.ncol - 1)) := by
        apply List.filter_congr
        intro c hc
        show decide (1 ≤ c ∧ c < b.ncol - 1 ∧ 1 ≤ r ∧ r < b.nrow - 1) =
          decide (1 ≤ c ∧ c < b.ncol - 1)
        rw [decide_eq_decide]
        omega
      rw [hfe, range_filter_window]
      have hm : min (b.ncol - 1) b.ncol - 1 = b.ncol - 2 := by omega
      rw [hm]
    · rw [if_neg hr]
      have hfe : (List.range b.ncol).filter
          ((fun sq => decide (1 ≤ sq.c ∧ sq.c < b.ncol - 1 ∧
            1 ≤ sq.r ∧ sq.r < b.nrow - 1)) ∘ (fun c => (⟨c, r⟩ : Square))) = [] := by
        rw [List.filter_eq_nil_iff]
        intro c hc
        show ¬ decide (1 ≤ c ∧ c < b.ncol - 1 ∧ 1 ≤ r ∧ r < b.nrow - 1) = true
        rw [decide_eq_true_eq]
        omega
      rw [hfe, List.map_nil]
  simp only [hrow]
  rw [flatMap_range_window]
  have hm : min (b.nrow - 1) b.nrow - 1 = b.nrow - 2 := by omega
  rw [hm]

theorem Board.length_squares_inner (b : Board) :
    b.squares_inner.length = (b.ncol - 2) * (b.nrow - 2) := by
  rw [Board.squares_inner_explicit, List.length_flatMap]
  have h1 : List.map (List.length ∘ fun r =>
        (List.range' 1 (b.ncol - 2)).map (fun c => (⟨c, r⟩ : Square)))
        (List.range' 1 (b.nrow - 2)) =
      List.map (fun _ => b.ncol - 2) (List.range' 1 (b.nrow - 2)) := by
    apply List.map_congr_left
    intro r hr
    simp [List.length_map, List.length_range']
  rw [h1, List.map_const', List.sum_replicate, List.length_range', smul_eq_mul]
  ring

theorem Board.initialRandom_innerCells (ci ri : Nat) (σ : List Nat)
    (hlen : (base ci ri).squares_inner.length =
      ((randomTiles (ci * ri) σ).map BoardCell.Tile).length) :
    (initialRandom ci ri σ).innerCells = (randomTiles (ci * ri) σ).map .Tile := by
  unfold Board.innerCells
  have hinner : (initialRandom ci ri σ).squares_inner = (base ci ri).squares_inner :=
    Board.squares_inner_eq_of_dims (Board.initialRandom_ncol ci ri σ)
      (Board.initialRandom_nrow ci ri σ)
  rw [hinner]
  exact Board.setMany_inner_map_get (Board.base_wf ci ri) hlen

/-! ### The multiset of kinds `Board::random` lays out -/

theorem count_flatten_replicate {α : Type} [DecidableEq α] (m : Nat) (l : List α)
    (k : α) : ((List.replicate m l).flatten).count k = m * l.count k := by
  induction m with
  | zero => simp
  | succ m ih =>
    rw [List.replicate_succ, List.flatten_cons, List.count_append, ih]
    ring

theorem count_range (n k : Nat) :
    (List.range n).count k = if k < n then 1 else 0 := by
  by_cases h : k < n
  · rw [if_pos h]
    exact List.count_eq_one_of_mem (List.nodup_range n) (by simpa using h)
  · rw [if_neg h]
    rw [List.count_eq_zero]
    simpa using h

theorem count_tile_map (l : List Nat) (k : Nat) :
    (l.map BoardCell.Tile).count (BoardCell.Tile k) = l.count k := by
  rw [count_map_eq_countP]
  show _ = l.countP (fun a => a == k)
  apply List.countP_congr
  intro a _
  by_cases h : a = k <;> simp [h]

theorem Board.randomTiles_length (n : Nat) (σ : List Nat) (hn : n % 2 = 0)
    (hσ : TILE_KIND_COUNT ≤ σ.length) :
    (randomTiles n σ).length = n := by
  unfold Board.randomTiles
  rw [List.length_append, List.length_append, List.length_flatten,
    List.map_replicate, List.sum_replicate, List.length_range,
    List.length_take, smul_eq_mul]
  unfold TILE_KIND_COUNT at *
  omega

theorem Board.randomTiles_count (n : Nat) (σ : List Nat) (k : Nat) :
    (randomTiles n σ).count k =
      2 * (n / (2 * TILE_KIND_COUNT)) * (if k < TILE_KIND_COUNT then 1 else 0) +
      2 * (σ.take (n % (2 * TILE_KIND_COUNT) / 2)).count k := by
  unfold Board.randomTiles
  rw [List.count_append, List.count_append, count_flatten_replicate, count_range]
  by_cases hk : k < TILE_KIND_COUNT
  · rw [if_pos hk]
    omega
  · rw [if_neg hk]
    omega

theorem BoardCell.is_tile_eq_false_of_is_empty {x : BoardCell}
    (h : x.is_empty = true) : x.is_tile = false := by
  cases x with
  | Empty => rfl
  | Tile k => exact Bool.noConfusion h

/-- Everything `Gen.master` yields about an arbitrary output of `Board::random`:
its dimensions, well-formedness, solvability, interior multiset, and empty
border. -/
theorem Produced.facts {ci ri : Nat} {b : Board} (hp : Produced ci ri b) :
    b.ncol = ci + 2 ∧ b.nrow = ri + 2 ∧ b.Wf ∧ Clearable b ∧
    (∃ σ : List Nat, σ.Perm (List.range TILE_KIND_COUNT) ∧
      ∀ x, b.innerCells.count x =
        ((randomTiles (ci * ri) σ).map BoardCell.Tile).count x) ∧
    (∀ sq, b.SqIn sq → sq ∉ b.squares_inner → b.get sq = .Empty) := by
  obtain ⟨hc0, hr0, heven, hu1, hu2, hu3, σ, hσ, hgen⟩ := hp
  have hwf := Board.initialRandom_wf ci ri σ
  have hB : ∀ sq, (initialRandom ci ri σ).SqIn sq →
      sq ∉ (initialRandom ci ri σ).squares_inner →
      (initialRandom ci ri σ).get sq = .Empty := fun sq h1 h2 =>
    Board.initialRandom_get_not_inner h1 h2
  obtain ⟨hfc, hfr, hfw, hcount, hocc, hval, huniv⟩ :=
    Gen.master hgen hwf hwf rfl rfl (fun sq h1 h2 => rfl) hB hB
  have hσlen : σ.length = TILE_KIND_COUNT := by
    rw [hσ.length_eq, List.length_range]
  have hn2 : ci * ri % 2 = 0 := by
    rcases heven with h | h
    · exact Nat.even_iff.mp ((Nat.even_iff.mpr h).mul_right ri)
    · exact Nat.even_iff.mp ((Nat.even_iff.mpr h).mul_left ci)
  have hilen : (base ci ri).squares_inner.length =
      ((randomTiles (ci * ri) σ).map BoardCell.Tile).length := by
    rw [List.length_map, Board.randomTiles_length _ _ hn2 (by rw [hσlen]),
      Board.length_squares_inner]
    show (ci + 2 - 2) * (ri + 2 - 2) = ci * ri
    simp
  have hcells := Board.initialRandom_innerCells ci ri σ hilen
  have hbc : b.ncol = ci + 2 := by rw [hfc, Board.initialRandom_ncol]
  have hbr : b.nrow = ri + 2 := by rw [hfr, Board.initialRandom_nrow]
  refine ⟨hbc, hbr, hfw, ?_, ⟨σ, hσ, ?_⟩, ?_⟩
  · exact huniv b hfw hfc hfr (fun sq hin => hocc sq hin) (fun sq hin ht => rfl)
  · intro x
    rw [hcount x, hcells]
  · intro sq h1 h2
    have h1' : (initialRandom ci ri σ).SqIn sq := (Board.sqIn_congr hfc hfr sq).mp h1
    have h2' : sq ∉ (initialRandom ci ri σ).squares_inner := by
      intro hmem
      apply h2
      rw [Board.squares_inner_eq_of_dims hfc hfr]
      exact hmem
    have hocc' := hocc sq h1'
    rw [Board.initialRandom_get_not_inner h1' h2'] at hocc'
    exact BoardCell.empty_of_is_tile_false (hocc'.trans rfl)

/-- Executable border check agrees with the pointwise statement. -/
theorem Board.border_empty_iff (b : Board) : b.border_empty = true ↔
    ∀ sq, b.SqIn sq →
      (sq.c = 0 ∨ sq.r = 0 ∨ sq.c = b.ncol - 1 ∨ sq.r = b.nrow - 1) →
      (b.get sq).is_empty = true := by
  unfold Board.border_empty
  rw [List.all_eq_true]
  constructor
  · intro h sq hin hc
    have hsq : sq ∈ b.squares := (Board.mem_squares b sq).mpr hin
    have h2 := h sq hsq
    rw [if_pos hc] at h2
    exact h2
  · intro h sq hsq
    by_cases hc : sq.c = 0 ∨ sq.r = 0 ∨ sq.c = b.ncol - 1 ∨ sq.r = b.nrow - 1
    · rw [if_pos hc]
      exact h sq ((Board.mem_squares b sq).mp hsq) hc
    · rw [if_neg hc]

/-- C4: the border ring is empty on the board `Board::empty` returns and on
every board `Board::random` can produce, and neither `do_move` nor the tile
reshuffle of `Board::shuffle` ever writes a tile to a border square, so every
board arising inside `shuffle_solvable` keeps an empty border. -/
theorem border_ring_always_empty :
    (∀ ci ri b, Board.empty? ci ri = some b → b.border_empty = true) ∧
    (∀ ci ri b, Produced ci ri b → b.border_empty = true) ∧
    (∀ (b : Board) (mv : Move), b.border_empty = true →
      (b.do_move mv).border_empty = true) ∧
    (∀ (b : Board) (ts : List BoardCell), b.border_empty = true →
      (b.assignTiles ts).border_empty = true) := by
  refine ⟨?_, ?_, ?_, ?_⟩
  · intro ci ri b h
    unfold Board.empty? at h
    split_ifs at h
    injection h with h
    subst h
    rw [Board.border_empty_iff]
    intro sq hin hc
    rw [get_replicate_empty]
    rfl
  · intro ci ri b hp
    obtain ⟨hbc, hbr, hwf, hcl, hcnt, hbord⟩ := Produced.facts hp
    rw [Board.border_empty_iff]
    intro sq hin hc
    have hni : sq ∉ b.squares_inner := by
      intro hmem
      rw [Board.mem_squares_inner] at hmem
      omega
    rw [hbord sq hin hni]
    rfl
  · intro b mv h
    rw [Board.border_empty_iff] at h ⊢
    intro sq hin hc
    have e1 : (b.do_move mv).ncol = b.ncol := Board.ncol_do_move b mv
    have e2 : (b.do_move mv).nrow = b.nrow := Board.nrow_do_move b mv
    have hin' : b.SqIn sq := (Board.sqIn_congr e1 e2 sq).mp hin
    have hc' : sq.c = 0 ∨ sq.r = 0 ∨ sq.c = b.ncol - 1 ∨ sq.r = b.nrow - 1 := by
      rw [e1, e2] at hc
      exact hc
    rcases Board.do_move_values b mv sq with hv | hv
    · rw [hv]
      exact h sq hin' hc'
    · rw [hv]
      rfl
  · intro b ts h
    rw [Board.border_empty_iff] at h ⊢
    intro sq hin hc
    have e1 : (b.assignTiles ts).ncol = b.ncol := Board.ncol_setMany b _
    have e2 : (b.assignTiles ts).nrow = b.nrow := Board.nrow_setMany b _
    have hin' : b.SqIn sq := (Board.sqIn_congr e1 e2 sq).mp hin
    have hc' : sq.c = 0 ∨ sq.r = 0 ∨ sq.c = b.ncol - 1 ∨ sq.r = b.nrow - 1 := by
      rw [e1, e2] at hc
      exact hc
    have hnt : (b.get sq).is_tile = false :=
      BoardCell.is_tile_eq_false_of_is_empty (h sq hin' hc')
    rw [Board.assignTiles_get_not_tile hnt]
    exact h sq hin' hc'

/-- C1 (corrected): every board `Board::random` can produce is solvable — some
sequence of legal moves clears it completely — although the greedy
`find_move`/`do_move` loop the claim describes need not find such a sequence. -/
theorem produced_clearable {ci ri : Nat} {b : Board} (hp : Produced ci ri b) :
    Clearable b :=
  (Produced.facts hp).2.2.2.1

/-- C9: a board produced by `Board::random ci ri` carries exactly `ci * ri`
interior tiles; kinds at or beyond `TILE_KIND_COUNT` never occur; and with
`q = ci*ri / (2*34)` and `r = ci*ri % (2*34)` there are exactly `r / 2`
distinct kinds appearing `2q + 2` times while every other kind appears `2q`
times. -/
theorem random_kind_multiset {ci ri : Nat} {b : Board} (hp : Produced ci ri b) :
    b.tileCount = ci * ri ∧
    (∀ k, TILE_KIND_COUNT ≤ k → b.kindCount k = 0) ∧
    ∃ extra : List Nat, extra.length = ci * ri % (2 * TILE_KIND_COUNT) / 2 ∧
      extra.Nodup ∧ (∀ k ∈ extra, k < TILE_KIND_COUNT) ∧
      (∀ k, k < TILE_KIND_COUNT →
        b.kindCount k = 2 * (ci * ri / (2 * TILE_KIND_COUNT)) +
          (if k ∈ extra then 2 else 0)) := by
  obtain ⟨hbc, hbr, hwf, hcl, ⟨σ, hσ, hcnt⟩, hbord⟩ := Produced.facts hp
  have hσlen : σ.length = TILE_KIND_COUNT := by
    rw [hσ.length_eq, List.length_range]
  have hσnd : σ.Nodup := hσ.nodup_iff.mpr (List.nodup_range _)
  obtain ⟨hc0, hr0, heven, -, -, -, -⟩ := hp
  have hn2 : ci * ri % 2 = 0 := by
    rcases heven with h | h
    · exact Nat.even_iff.mp ((Nat.even_iff.mpr h).mul_right ri)
    · exact Nat.even_iff.mp ((Nat.even_iff.mpr h).mul_left ci)
  have htl : (randomTiles (ci * ri) σ).length = ci * ri :=
    Board.randomTiles_length _ _ hn2 (by rw [hσlen])
  have hperm2 : b.innerCells.Perm ((randomTiles (ci * ri) σ).map BoardCell.Tile) :=
    List.perm_iff_count.mpr hcnt
  refine ⟨?_, ?_, σ.take (ci * ri % (2 * TILE_KIND_COUNT) / 2), ?_, ?_, ?_, ?_⟩
  · unfold Board.tileCount
    rw [← List.countP_eq_length_filter, hperm2.countP_eq,
      List.countP_eq_length_filter]
    have hall : ((randomTiles (ci * ri) σ).map BoardCell.Tile).filter
        (fun x => x.is_tile) = (randomTiles (ci * ri) σ).map BoardCell.Tile := by
      rw [List.filter_eq_self]
      intro a ha
      rw [List.mem_map] at ha
      obtain ⟨k, hk, rfl⟩ := ha
      rfl
    rw [hall, List.length_map, htl]
  · intro k hk
    unfold Board.kindCount
    rw [hcnt (BoardCell.Tile k), count_tile_map, Board.randomTiles_count]
    have h0 : (σ.take (ci * ri % (2 * TILE_KIND_COUNT) / 2)).count k = 0 := by
      rw [List.count_eq_zero]
      intro hmem
      have h1 : k ∈ σ := List.mem_of_mem_take hmem
      have h2 := hσ.mem_iff.mp h1
      rw [List.mem_range] at h2
      omega
    rw [if_neg (by omega), h0]
    omega
  · rw [List.length_take, hσlen]
    unfold TILE_KIND_COUNT
    omega
  · exact (List.take_sublist _ _).nodup hσnd
  · intro k hk
    have h1 : k ∈ σ := List.mem_of_mem_take hk
    have h2 := hσ.mem_iff.mp h1
    rw [List.mem_range] at h2
    exact h2
  · intro k hk
    unfold Board.kindCount
    rw [hcnt (BoardCell.Tile k), count_tile_map, Board.randomTiles_count,
      if_pos hk]
    by_cases hm : k ∈ σ.take (ci * ri % (2 * TILE_KIND_COUNT) / 2)
    · rw [if_pos hm,
        List.count_eq_one_of_mem ((List.take_sublist _ _).nodup hσnd) hm]
      omega
    · rw [if_neg hm, List.count_eq_zero.mpr hm]
      omega

/-! ### Concrete facts about the trap board, checked by kernel evaluation -/

theorem playSeq_sound : ∀ (l : List (Square × Square)) (b b' : Board),
    playSeq b l = some b' → RandomPlay b b' := by
  intro l
  induction l with
  | nil =>
    intro b b' h
    unfold playSeq at h
    injection h with h
    rw [h]
    exact RandomPlay.refl b'
  | cons p ps ih =>
    intro b b' h
    unfold playSeq at h
    by_cases hp : p ∈ pairs2 b.squares_inner
    · rw [if_pos hp] at h
      cases hf : b.find_move_between p.1 p.2 with
      | none =>
        rw [hf] at h
        exact Option.noConfusion h
      | some mv =>
        rw [hf] at h
        exact RandomPlay.step p.1 p.2 mv hp hf (ih _ _ h)
    · rw [if_neg hp] at h
      exact Option.noConfusion h

theorem Board.greedyRun_none {b : Board} (h : b.find_move = none) :
    ∀ n, Board.greedyRun n b = b := by
  intro n
  cases n with
  | zero => rfl
  | succ m =>
    unfold Board.greedyRun
    rw [h]

theorem Board.greedyRun_step {b : Board} {mv : Move} (h : b.find_move = some mv)
    (n : Nat) : Board.greedyRun (n + 1) b = Board.greedyRun n (b.do_move mv) := by
  have he : Board.greedyRun (n + 1) b =
      match b.find_move with
      | none => b
      | some mv => Board.greedyRun n (b.do_move mv) := rfl
  rw [he, h]

set_option maxRecDepth 100000 in
set_option maxHeartbeats 4000000 in
theorem trap_find_move :
    trapBoard.find_move = some ⟨[⟨4, 1⟩, ⟨4, 0⟩, ⟨5, 0⟩, ⟨5, 1⟩]⟩ := by decide

set_option maxRecDepth 100000 in
set_option maxHeartbeats 4000000 in
theorem trap_stuck_after :
    (trapBoard.do_move ⟨[⟨4, 1⟩, ⟨4, 0⟩, ⟨5, 0⟩, ⟨5, 1⟩]⟩).find_move = none := by
  decide

set_option maxRecDepth 100000 in
set_option maxHeartbeats 4000000 in
theorem trap_nonempty_after :
    (trapBoard.do_move ⟨[⟨4, 1⟩, ⟨4, 0⟩, ⟨5, 0⟩, ⟨5, 1⟩]⟩).is_empty = false := by
  decide

set_option maxRecDepth 100000 in
set_option maxHeartbeats 4000000 in
theorem trap_playseq : playSeq trapBoard trapSolution = some emptyFinal := by decide

set_option maxRecDepth 100000 in
set_option maxHeartbeats 4000000 in
theorem trap_tiles_perm : trapTiles.Perm trapInitial.iter_tiles := by decide

set_option maxRecDepth 100000 in
set_option maxHeartbeats 4000000 in
theorem trap_assign_eq : trapInitial.assignTiles trapTiles = trapBoard := by decide

set_option maxRecDepth 100000 in
set_option maxHeartbeats 4000000 in
theorem trap_writeback_eq :
    trapInitial.writeback (trapInitial.assignTiles trapTiles) = trapBoard := by
  decide

set_option maxRecDepth 100000 in
theorem trap_initial_nonempty : trapInitial.is_empty = false := by decide

set_option maxRecDepth 100000 in
set_option maxHeartbeats 4000000 in
theorem emptyFinal_find_move_none : emptyFinal.find_move = none := by decide

theorem emptyFinal_is_empty : emptyFinal.is_empty = true := by decide

/-- `trapBoard` really is a possible output of `Board::random 10 7`: one
`shuffle_solvable` round shuffles the initial layout into `trapBoard`'s
arrangement, writes it back, and the random-move phase then clears the working
copy completely (via `trapSolution`), ending the loop. -/
theorem trapBoard_produced : Produced 10 7 trapBoard := by
  refine ⟨by omega, by omega, Or.inl rfl, by decide, by decide, by decide,
    List.range 34, List.Perm.refl _, ?_⟩
  show Gen trapInitial trapInitial trapBoard
  refine Gen.step trapTiles emptyFinal trap_initial_nonempty trap_tiles_perm
    ?_ emptyFinal_find_move_none ?_
  · rw [trap_assign_eq]
    exact playSeq_sound trapSolution trapBoard emptyFinal trap_playseq
  · show Gen (trapInitial.writeback (trapInitial.assignTiles trapTiles))
      emptyFinal trapBoard
    rw [trap_writeback_eq]
    exact Gen.done trapBoard emptyFinal emptyFinal_is_empty

/-- C1 counterexample: on the produced board `trapBoard`, the greedy loop of
the claim — repeatedly apply the move `find_move` returns — stops after one
move at a non-empty stuck board, and stays there for any number of further
iterations.  The original claim is therefore false as stated; the board itself
is nevertheless solvable (`produced_clearable`, via `trapSolution`). -/
theorem greedy_loop_counterexample :
    Produced 10 7 trapBoard ∧
    (∀ n, Board.greedyRun (n + 2) trapBoard = Board.greedyRun 2 trapBoard) ∧
    (Board.greedyRun 2 trapBoard).find_move = none ∧
    (Board.greedyRun 2 trapBoard).is_empty = false := by
  have hg2 : Board.greedyRun 2 trapBoard =
      trapBoard.do_move ⟨[⟨4, 1⟩, ⟨4, 0⟩, ⟨5, 0⟩, ⟨5, 1⟩]⟩ := by
    rw [Board.greedyRun_step trap_find_move 1, Board.greedyRun_none trap_stuck_after]
  refine ⟨trapBoard_produced, ?_, ?_, ?_⟩
  · intro n
    rw [Board.greedyRun_step trap_find_move (n + 1),
      Board.greedyRun_none trap_stuck_after, hg2]
  · rw [hg2]
    exact trap_stuck_after
  · rw [hg2]
    exact trap_nonempty_after

/-- Witness for C1's corrected statement at a concrete input: `trapBoard` is a
possible `Board::random 10 7` output and is clearable. -/
theorem produced_clearable_witness :
    Produced 10 7 trapBoard ∧ Clearable trapBoard :=
  ⟨trapBoard_produced, produced_clearable trapBoard_produced⟩

/-- Witness for C4 at a concrete input: the produced board `trapBoard` has an
empty border ring. -/
theorem border_ring_always_empty_witness :
    Produced 10 7 trapBoard ∧ trapBoard.border_empty = true :=
  ⟨trapBoard_produced, border_ring_always_empty.2.1 10 7 trapBoard trapBoard_produced⟩

/-- Witness for C9 at a concrete input: the produced board `trapBoard` carries
70 tiles realizing the `2q`/`2q + 2` kind multiset. -/
theorem random_kind_multiset_witness :
    Produced 10 7 trapBoard ∧
    (trapBoard.tileCount = 10 * 7 ∧
      (∀ k, TILE_KIND_COUNT ≤ k → trapBoard.kindCount k = 0) ∧
      ∃ extra : List Nat, extra.length = 10 * 7 % (2 * TILE_KIND_COUNT) / 2 ∧
        extra.Nodup ∧ (∀ k ∈ extra, k < TILE_KIND_COUNT) ∧
        (∀ k, k < TILE_KIND_COUNT →
          trapBoard.kindCount k = 2 * (10 * 7 / (2 * TILE_KIND_COUNT)) +
            (if k ∈ extra then 2 else 0))) :=
  ⟨trapBoard_produced, random_kind_multiset trapBoard_produced⟩

end Shisen
